import Mathlib

/-!
Verification development for the InfoTracker SQL lineage extractor.

Each definition in this file is a shallow embedding of a function of the
Python source (file and line references are given in the doc comments).
Python dictionaries are modelled as association lists (first match wins,
insertion order preserved), Python sets as lists with set-style membership,
raised exceptions as `Except` values, and `None` as `Option.none`.
-/

namespace InfoTracker

/-- Association-list lookup, modelling Python `dict.get` (keys are unique in
a Python dict; the first matching key wins). -/
def assocFind {α : Type} : List (String × α) → String → Option α
  | [], _ => none
  | (k0, v) :: rest, k => if k0 = k then some v else assocFind rest k

/-- Association-list update, modelling Python `dict[k] = v`: replaces the
value at an existing key in place, otherwise appends the binding (dict
insertion order). -/
def assocSet {α : Type} : List (String × α) → String → α → List (String × α)
  | [], k, v => [(k, v)]
  | (k0, v0) :: rest, k, v =>
    if k0 = k then (k0, v) :: rest else (k0, v0) :: assocSet rest k v

/-- Membership test for association-list keys, modelling Python `k in dict`. -/
def assocHas {α : Type} (l : List (String × α)) (k : String) : Bool :=
  (assocFind l k).isSome

/-! ## String helpers shared by the embeddings

The standard library implements the string operations the source relies
on (lower-casing, splitting, trimming, affix tests, replacement) by
well-founded recursion over byte positions, which the kernel does not
reduce; the embeddings therefore use the following structurally recursive
equivalents over the character list of a string, so that every theorem
below can be checked on concrete inputs. -/

/-- Python truthiness of an optional string: `a or b` with `None` and the
empty string falsy. -/
def pyOr (a : Option String) (b : String) : String :=
  match a with
  | some s => if s = "" then b else s
  | none => b

/-- Python `a or b` on two optional strings (empty string falsy). -/
def pyOrO (a b : Option String) : Option String :=
  match a with
  | some s => if s = "" then b else some s
  | none => b

/-- Lower-cased string, Python `s.lower()` (ASCII reading). -/
def lowerStr (s : String) : String :=
  String.mk (s.data.map Char.toLower)

/-- Upper-cased string, Python `s.upper()` (ASCII reading). -/
def upperStr (s : String) : String :=
  String.mk (s.data.map Char.toUpper)

/-- Literal-prefix test on character lists. -/
def isPrefixL : List Char → List Char → Bool
  | [], _ => true
  | _ :: _, [] => false
  | p :: ps, c :: cs => p = c && isPrefixL ps cs

/-- Python `s.startswith(pre)`. -/
def strStarts (s pre : String) : Bool :=
  isPrefixL pre.data s.data

/-- Python `s.endswith(suf)`. -/
def strEnds (s suf : String) : Bool :=
  isPrefixL suf.data.reverse s.data.reverse

/-- Substring occurrence on character lists. -/
def hasSub (pat : List Char) : List Char → Bool
  | [] => pat.isEmpty
  | l@(_ :: rest) => isPrefixL pat l || hasSub pat rest

/-- Substring containment, Python `pat in s`. -/
def containsSub (s pat : String) : Bool :=
  hasSub pat.data s.data

/-- Splitting accumulator for a single-character separator. -/
def splitCharAux (sep : Char) : List Char → List Char → List (List Char)
  | [], acc => [acc.reverse]
  | c :: cs, acc =>
    if c = sep then acc.reverse :: splitCharAux sep cs []
    else splitCharAux sep cs (c :: acc)

/-- Python `s.split(sep)` for a one-character separator (also the
behaviour of splitting on a one-character literal). -/
def splitChar (sep : Char) (s : String) : List String :=
  (splitCharAux sep s.data []).map String.mk

/-- Leading-whitespace trim, Python `s.lstrip()`. -/
def strTrimLeft (s : String) : String :=
  String.mk (s.data.dropWhile Char.isWhitespace)

/-- Trailing section removal on character lists. -/
def dropRightWhileL (p : Char → Bool) (l : List Char) : List Char :=
  (l.reverse.dropWhile p).reverse

/-- Whitespace trim on both ends, Python `s.strip()`. -/
def strTrim (s : String) : String :=
  String.mk (dropRightWhileL Char.isWhitespace (s.data.dropWhile Char.isWhitespace))

/-- Whitespace tokens of a string, Python `s.split()` (empty pieces
dropped). -/
def wsTokens (s : String) : List String :=
  ((splitCharAux ' ' (s.data.map (fun c => if c.isWhitespace then ' ' else c)) []).map
    String.mk).filter (fun t => t != "")

/-- One fuelled replacement pass over a character list (Python
`s.replace(pat, repl)` with a nonempty pattern, left to right,
non-overlapping). -/
def replaceAux (pat repl : List Char) : Nat → List Char → List Char
  | 0, l => l
  | _ + 1, [] => []
  | f + 1, l@(c :: rest) =>
    if isPrefixL pat l && !pat.isEmpty then
      repl ++ replaceAux pat repl f (l.drop pat.length)
    else c :: replaceAux pat repl f rest

/-- Python `s.replace(pat, repl)` for a nonempty pattern. -/
def strReplace (s pat repl : String) : String :=
  String.mk (replaceAux pat.data repl.data (s.data.length + 1) s.data)

/-- Word character of the `\w` regex character class (ASCII reading). -/
def isWordChar (c : Char) : Bool :=
  c.isAlphanum || c = '_'

/-- Decimal digit character for a digit value. -/
def digitChar : Nat → Char
  | 0 => '0' | 1 => '1' | 2 => '2' | 3 => '3' | 4 => '4'
  | 5 => '5' | 6 => '6' | 7 => '7' | 8 => '8' | _ => '9'

/-- Digit value of a decimal digit character (inverse of `digitChar`). -/
def undigit : Char → Nat
  | '0' => 0 | '1' => 1 | '2' => 2 | '3' => 3 | '4' => 4
  | '5' => 5 | '6' => 6 | '7' => 7 | '8' => 8 | _ => 9

/-- Little-endian decimal digits, with fuel bounding the recursion depth
(the value strictly decreases, so any fuel above the value is enough). -/
def natToRevDigitsAux : Nat → Nat → List Char
  | 0, _ => []
  | f + 1, n => if n = 0 then [] else digitChar (n % 10) :: natToRevDigitsAux f (n / 10)

/-- Little-endian decimal digits of a natural number (empty for zero). -/
def natToRevDigits (n : Nat) : List Char :=
  natToRevDigitsAux (n + 1) n

/-- Decimal rendering of a natural number, modelling the Python f-string
interpolation of an int. -/
def natRepr (n : Nat) : String :=
  if n = 0 then "0" else String.mk (natToRevDigits n).reverse

/-- Set-style insert on a list (Python `set.add`): no duplicates. -/
def insertU (l : List String) (x : String) : List String :=
  if x ∈ l then l else l ++ [x]

/-- Set-style union on lists (Python `set.update`). -/
def unionU (l : List String) (xs : List String) : List String :=
  xs.foldl insertU l

/-! ## Data model (src/src/infotracker/models.py, shapes as used by parser.py) -/

/-- Transformation kinds used by the handlers embedded in this file. -/
inductive TransformationType where
  | IDENTITY
  | EXEC
  | EXPRESSION
  | CAST
  | CASE
  deriving DecidableEq, Repr

/-- ColumnReference: (namespace, table name, column name). -/
structure ColumnReference where
  ns : String
  table_name : String
  column_name : String
  deriving DecidableEq, Repr

/-- ColumnSchema: (name, data type, nullable, ordinal). -/
structure ColumnSchema where
  name : String
  data_type : String
  nullable : Bool
  ordinal : Nat
  deriving DecidableEq, Repr

/-- ColumnLineage: one output column with its input fields and kind. -/
structure ColumnLineage where
  output_column : String
  input_fields : List ColumnReference
  transformation_type : TransformationType
  transformation_description : String
  deriving DecidableEq, Repr

/-- TableSchema: namespace, qualified name, ordered column list. -/
structure TableSchema where
  ns : String
  name : String
  columns : List ColumnSchema
  deriving DecidableEq, Repr

/-- ObjectInfo as produced by the DML handlers (name, object type, schema,
lineage, dependency set modelled as a list with set membership). -/
structure ObjectInfo where
  name : String
  object_type : String
  schema : TableSchema
  lineage : List ColumnLineage
  dependencies : List String
  deriving DecidableEq, Repr

/-! ## ObjectDbRegistry (src/src/infotracker/object_db_registry.py) -/

/-- Key builder `_key` (object_db_registry.py line 12). -/
def keyOf (objType schemaTable : String) : String :=
  lowerStr objType ++ "::" ++ lowerStr schemaTable

/-- Key builder `_wild` (object_db_registry.py line 16). -/
def wildOf (schemaTable : String) : String :=
  "*::" ++ lowerStr schemaTable

/-- ObjectDbRegistry state: `hard` maps keys to databases, `soft` maps keys
to histograms (database to count), per object_db_registry.py lines 20-24. -/
structure ObjectDbRegistry where
  hard : List (String × String)
  soft : List (String × List (String × Nat))
  deriving DecidableEq, Repr

/-- The empty registry (a fresh `ObjectDbRegistry()`). -/
def ObjectDbRegistry.empty : ObjectDbRegistry := ⟨[], []⟩

/-- First entry of a histogram attaining the maximal count. This is the head
of `Counter.most_common()`: sorting by count descending is stable, so ties
keep insertion order and the first inserted maximal entry comes out on top. -/
def maxEnt : List (String × Nat) → Option (String × Nat)
  | [] => none
  | e :: rest =>
    match maxEnt rest with
    | none => some e
    | some m => if m.2 > e.2 then some m else some e

/-- Dominance test of `resolve` (object_db_registry.py lines 82-84):
`top = c.most_common(2)` followed by
`len(top) == 1 or top[0][1] > top[1][1]` holds exactly when the maximal
count is attained by exactly one histogram entry; the winner is then the
first such entry. -/
def strictTop (l : List (String × Nat)) : Option String :=
  match maxEnt l with
  | none => none
  | some (k, m) => if l.countP (fun e => e.2 = m) = 1 then some k else none

/-- Python `fallback or "InfoTrackerDW"` (object_db_registry.py line 85):
`None` and the empty string are falsy. -/
def fallbackOr (fb : Option String) : String :=
  match fb with
  | some s => if s = "" then "InfoTrackerDW" else s
  | none => "InfoTrackerDW"

/-- The histogram chosen by `c = self.soft.get(k1) or self.soft.get(k2)`
(object_db_registry.py line 80): the kind-specific histogram when present
and nonempty, else the wildcard histogram (possibly empty or missing). -/
def softPick (reg : ObjectDbRegistry) (k1 k2 : String) : List (String × Nat) :=
  match assocFind reg.soft k1 with
  | some l => if l.isEmpty then (assocFind reg.soft k2).getD [] else l
  | none => (assocFind reg.soft k2).getD []

/-- `ObjectDbRegistry.resolve` (object_db_registry.py lines 73-85). -/
def ObjectDbRegistry.resolve (reg : ObjectDbRegistry) (objType schemaTable : String)
    (fb : Option String) : String :=
  let k1 := keyOf objType schemaTable
  match assocFind reg.hard k1 with
  | some db => db
  | none =>
    let k2 := wildOf schemaTable
    match assocFind reg.hard k2 with
    | some db => db
    | none =>
      match strictTop (softPick reg k1 k2) with
      | some db => db
      | none => fallbackOr fb

/-- Histogram bump `self.soft[key][db] += w` (Counter semantics: a missing
database starts at zero; a new database is appended in insertion order). -/
def bump : List (String × Nat) → String → Nat → List (String × Nat)
  | [], db, w => [(db, w)]
  | (k0, n) :: rest, db, w =>
    if k0 = db then (k0, n + w) :: rest else (k0, n) :: bump rest db w

/-- Learning API events (object_db_registry.py lines 49-63). -/
inductive LearnEvent where
  | fromCreate (objType schemaTable db : String)
  | fromTargets (schemaTable db : String)
  | fromReferences (schemaTable db : String)
  deriving DecidableEq, Repr

/-- One learning step. Each learner is a no-op unless both `schema_table`
and `db` are nonempty (`if not (schema_table and db): return`, lines 50,
55, 61). `learn_from_create` writes a hard kind entry; `learn_from_targets`
writes a hard wildcard entry and bumps the soft histogram by 10;
`learn_from_references` bumps the soft histogram by 1. -/
def ObjectDbRegistry.applyEvent (reg : ObjectDbRegistry) : LearnEvent → ObjectDbRegistry
  | .fromCreate t st db =>
    if st = "" ∨ db = "" then reg
    else { reg with hard := assocSet reg.hard (keyOf t st) db }
  | .fromTargets st db =>
    if st = "" ∨ db = "" then reg
    else
      { hard := assocSet reg.hard (wildOf st) db
        soft := assocSet reg.soft (wildOf st)
          (bump ((assocFind reg.soft (wildOf st)).getD []) db 10) }
  | .fromReferences st db =>
    if st = "" ∨ db = "" then reg
    else
      { reg with
        soft := assocSet reg.soft (wildOf st)
          (bump ((assocFind reg.soft (wildOf st)).getD []) db 1) }

/-- A registry built by a sequence of learning events from the empty one. -/
def ObjectDbRegistry.ofEvents (evs : List LearnEvent) : ObjectDbRegistry :=
  evs.foldl ObjectDbRegistry.applyEvent ObjectDbRegistry.empty

/-! ## Namespace and FQN resolver (src/src/infotracker/parser.py) -/

/-- Per-parse context of `SqlParser` as read by the resolver: dbt mode flag,
database context, default schema and the optional object-to-database
registry (parser.py lines 118-139). -/
structure ParserCtx where
  dbt_mode : Bool
  current_database : Option String
  default_database : Option String
  default_schema : Option String
  registry : Option ObjectDbRegistry

/-- Temp-table test of `_ns_and_name` (parser.py line 322):
the name starts with a hash or mentions the tempdb hash form. -/
def isTempName (t : String) : Bool :=
  strStarts t "#" || containsSub t "tempdb..#"

/-- Pseudo catalogs stripped by `_ns_and_name` (parser.py line 330). -/
def pseudoCatalogs : List String := ["view", "function", "procedure"]

/-- `self.current_database or self.default_database or "InfoTrackerDW"`
(parser.py lines 356, 359 and elsewhere). -/
def ctxDbFallback (ctx : ParserCtx) : String :=
  pyOr (pyOrO ctx.current_database ctx.default_database) "InfoTrackerDW"

/-- Join of the last two segments, Python `".".join(parts[-2:])`. -/
def lastTwoJoined (parts : List String) : String :=
  String.intercalate "." (parts.drop (parts.length - 2))

/-- `SqlParser._ns_and_name` (parser.py lines 309-370): returns
(namespace URI, schema.table) for a raw identifier.  Temp names keep the
temp namespace; a first segment in `pseudoCatalogs` is dropped when at
least three nonempty segments are present; with three or more remaining
segments the first is the database; otherwise the registry is consulted
with a context fallback. -/
def nsAndName (ctx : ParserCtx) (tableName : String) (objTypeHint : String) :
    String × String :=
  if tableName != "" && isTempName tableName then
    ("mssql://localhost/tempdb", tableName)
  else
    let parts0 := (splitChar '.' tableName).filter (fun p => p != "")
    let parts :=
      if decide (parts0.length ≥ 3) && pseudoCatalogs.contains (lowerStr (parts0.headD "")) then
        parts0.tail
      else parts0
    if ctx.dbt_mode then
      let lastSeg := parts.getLastD tableName
      ("mssql://localhost/" ++ ctxDbFallback ctx,
       pyOr ctx.default_schema "dbo" ++ "." ++ lastSeg)
    else
      let db :=
        if decide (parts.length ≥ 3) then parts.headD ""
        else
          let schemaTable : Option String :=
            if decide (parts.length ≥ 2) then some (lastTwoJoined parts)
            else if parts.length = 1 && (parts.headD "") != "" then
              some ("dbo." ++ parts.headD "")
            else none
          let dbReg : Option String :=
            match ctx.registry, schemaTable with
            | some reg, some st =>
              some (reg.resolve (if objTypeHint = "" then "table" else objTypeHint) st
                (some (ctxDbFallback ctx)))
            | _, _ => none
          pyOr dbReg (ctxDbFallback ctx)
      let nm :=
        if decide (parts.length ≥ 2) then lastTwoJoined parts
        else if parts.length = 1 && (parts.headD "") != "" then
          "dbo." ++ parts.headD ""
        else tableName
      ("mssql://localhost/" ++ db, nm)

/-- `SqlParser._get_full_table_name` (parser.py lines 560-578). -/
def getFullTableName (ctx : ParserCtx) (tableName : String) : String :=
  let db := ctxDbFallback ctx
  let parts := splitChar '.' tableName
  if parts.length = 1 then db ++ ".dbo." ++ tableName
  else if parts.length = 2 then db ++ "." ++ tableName
  else if parts.length = 3 then tableName
  else db ++ ".dbo." ++ tableName

/-! ## Temp-table versioning state (src/src/infotracker/parser.py) -/

/-- Per-file temp state of `SqlParser`: version counters, the column
registry (bare and versioned keys), per-column lineage maps and base
dependency sets (parser.py lines 122-130). -/
structure TempState where
  temp_version : List (String × Nat)
  temp_registry : List (String × List String)
  temp_lineage : List (String × List (String × List ColumnReference))
  temp_sources : List (String × List String)
  deriving DecidableEq, Repr

/-- The initial empty temp state. -/
def TempState.empty : TempState := ⟨[], [], [], []⟩

/-- Versioned key of a logical temp name, Python `f"{name}@{v}"`
(parser.py line 172). -/
def verKeyOf (name : String) (v : Nat) : String :=
  name ++ "@" ++ natRepr v

/-- Current version of a logical temp name (zero before any commit). -/
def versionOf (st : TempState) (name : String) : Nat :=
  (assocFind st.temp_version name).getD 0

/-- `SqlParser._temp_next` (parser.py lines 169-172): bumps the version of
a logical temp name and returns the versioned key `name@v`. -/
def tempNext (st : TempState) (name : String) : String × TempState :=
  let v := versionOf st name + 1
  (verKeyOf name v,
   { st with temp_version := assocSet st.temp_version name v })

/-- Column-to-inputs map built from a lineage list
(parser.py lines 1267-1269). -/
def colMapOf (lineage : List ColumnLineage) :
    List (String × List ColumnReference) :=
  lineage.foldl (fun m lin => assocSet m lin.output_column lin.input_fields) []

/-- Simple temp key of a dependency or target,
Python `name.split(".")[-1]` (parser.py lines 1257, 1422). -/
def simpleKeyOf (d : String) : String :=
  (splitChar '.' d).getLastD d

/-- Temp branch of `SqlParser._parse_select_into` (parser.py lines
1253-1273): creates version v+1 for the simple key, stores the columns
under both the versioned and the bare key, records base sources, and
stores the per-column lineage map under both keys. -/
def commitSelectInto (st : TempState) (tableName : String) (cols : List String)
    (deps : List String) (lineage : List ColumnLineage) : TempState :=
  let simpleKey := simpleKeyOf tableName
  let p := tempNext st simpleKey
  let verKey := p.1
  let st1 := p.2
  let cmap := colMapOf lineage
  { st1 with
    temp_registry := assocSet (assocSet st1.temp_registry verKey cols) simpleKey cols
    temp_sources := assocSet st1.temp_sources simpleKey deps
    temp_lineage := assocSet (assocSet st1.temp_lineage verKey cmap) simpleKey cmap }

/-- Temp-shape test of the dependency expansion
(parser.py line 1421): `d.startswith("tempdb..#") or d.startswith("#")`. -/
def isTempDep (d : String) : Bool :=
  strStarts d "tempdb..#" || strStarts d "#"

/-- Dependency expansion of `SqlParser._parse_insert_select` (parser.py
lines 1416-1428): temp dependencies are replaced by their recorded base
sources (dropped when none or empty are recorded); other dependencies are
kept. -/
def expandTempDeps (sources : List (String × List String))
    (deps : List String) : List String :=
  if deps.isEmpty then deps
  else
    deps.foldl
      (fun acc d =>
        if isTempDep d then
          match assocFind sources (simpleKeyOf d) with
          | some bases => if bases.isEmpty then acc else unionU acc bases
          | none => acc
        else insertU acc d)
      []

/-! ## INSERT INTO ... EXEC handler (src/src/infotracker/parser.py) -/

/-- `SqlParser._clean_proc_name` (parser.py lines 178-180):
`s.strip().rstrip(";").split("(")[0].strip()`. -/
def cleanProcName (s : String) : String :=
  strTrim ((splitChar '(' (String.mk (dropRightWhileL (fun c => c = ';') (strTrim s).data))).headD "")

/-- Python `name.strip("[]")`: strip square brackets from both ends
(parser.py line 1345). -/
def stripBrackets (s : String) : String :=
  String.mk (dropRightWhileL (fun c => c = '[' || c = ']')
    (s.data.dropWhile (fun c => c = '[' || c = ']')))

/-- Target column list extraction of `_parse_insert_exec` (parser.py lines
1331-1347): each named entry becomes an unknown-typed nullable column at
its enumerate index; empty names are skipped. -/
def targetColumnsOf (cols : List String) : List ColumnSchema :=
  cols.enum.filterMap fun ic =>
    if ic.2 = "" then none
    else some ⟨stripBrackets ic.2, "unknown", true, ic.1⟩

/-- Procedure name extraction of `_parse_insert_exec` (parser.py lines
1320-1329): the EXEC text must start with EXEC (upper-cased check), the
second whitespace token is cleaned and fully qualified. -/
def execProcName (ctx : ParserCtx) (execText : String) : Option String :=
  if strStarts (upperStr execText) "EXEC" then
    match wsTokens execText with
    | _ :: p :: _ => some (getFullTableName ctx (cleanProcName p))
    | _ => none
  else none

/-- Model of the sqlglot Insert node as consumed by `_parse_insert_exec`:
the raw target name (result of `_get_table_name` on the INTO target), the
EXEC command text when the insert body has one, and the raw target column
list. -/
structure InsertExecStmt where
  rawTarget : String
  execText : Option String
  targetCols : List String

/-- `SqlParser._parse_insert_exec` (parser.py lines 1292-1387), modelling
the returned ObjectInfo (the schema-registry side effect and the
registry-learning step are not part of the returned value).  A missing
EXEC body raises, modelled as `Except.error`. -/
def parseInsertExec (ctx : ParserCtx) (st : InsertExecStmt) :
    Except String ObjectInfo :=
  let pr := nsAndName ctx st.rawTarget "table"
  match st.execText with
  | none => .error "Could not parse INSERT INTO ... EXEC statement"
  | some execText =>
    let procName := execProcName ctx execText
    let dependencies := match procName with
      | some p => [p]
      | none => []
    let targetColumns := targetColumnsOf st.targetCols
    let outputColumns :=
      if targetColumns.isEmpty then
        [⟨"output_col_1", "unknown", true, 0⟩, ⟨"output_col_2", "unknown", true, 1⟩]
      else targetColumns
    let lineage := match procName with
      | none => []
      | some p =>
        let pq := nsAndName ctx p "table"
        outputColumns.map fun col =>
          { output_column := col.name
            input_fields := [⟨pq.1, pq.2, if targetColumns.isEmpty then "*" else col.name⟩]
            transformation_type := TransformationType.EXEC
            transformation_description := "INSERT INTO " ++ pr.2 ++ " EXEC " ++ pq.2 }
    .ok
      { name := pr.2
        object_type := if strStarts pr.2 "#" then "temp_table" else "table"
        schema := ⟨pr.1, pr.2, outputColumns⟩
        lineage := lineage
        dependencies := dependencies }

/-! ## SELECT star expansion (src/src/infotracker/parser.py lines 2410-2582) -/

/-- Per-parse registries read by `_infer_table_columns_unified`
(parser.py lines 2555-2575).  The schema registry is keyed by the
lower-cased `namespace.name` string, as `SchemaRegistry.register` builds
it; only the column names are needed here. -/
structure Registries where
  temp_registry : List (String × List String)
  cte_registry : List (String × List String)
  schema_registry : List (String × List String)

/-- `SqlParser._get_namespace_for_table` (parser.py lines 2577-2582). -/
def getNamespaceForTable (ctx : ParserCtx) (t : String) : String :=
  if strStarts t "#" || strStarts t "tempdb..#" then "mssql://localhost/tempdb"
  else "mssql://localhost/" ++ ctxDbFallback ctx

/-- `SqlParser._infer_table_columns_unified` (parser.py lines 2555-2575):
temp registry, then CTE registry, then schema registry, else three
deterministic unknown placeholders. -/
def inferTableColumnsUnified (ctx : ParserCtx) (regs : Registries) (t : String) :
    List String :=
  let simple := (splitChar '.' t).getLastD t
  match assocFind regs.temp_registry simple with
  | some cols => cols
  | none =>
    match assocFind regs.cte_registry simple with
    | some cols => cols
    | none =>
      let nsp := getNamespaceForTable ctx t
      match assocFind regs.schema_registry (lowerStr (nsp ++ "." ++ t)) with
      | some cols =>
        if cols.isEmpty then ["unknown_1", "unknown_2", "unknown_3"] else cols
      | none => ["unknown_1", "unknown_2", "unknown_3"]

/-- One projection entry of the SELECT list as consumed by
`_handle_star_expansion` (parser.py lines 2419-2542): an unqualified star,
a qualified star carrying its alias (both the `exp.Star` and the
`exp.Column` dotted-star encodings take this branch), or an explicit
expression carrying its extracted alias, its extracted column references
and its text. -/
inductive SelectItem where
  | star
  | qualifiedStar (aliasName : String)
  | exprItem (aliasName : Option String) (refs : List ColumnReference) (text : String)

/-- Model of the SELECT statement as read by the star expansion: the
projection items, the alias map recovered from FROM and JOIN clauses
(`_resolve_table_from_alias`, parser.py lines 2325-2352), and the source
tables in declaration order (the `find_all(exp.Table)` walk of lines
2453-2457, names already passed through `_get_table_name`). -/
structure SelectModel where
  items : List SelectItem
  aliasTables : List (String × String)
  tables : List String

/-- Alias resolution for a qualified star (parser.py lines 2334-2352,
nonempty alias): the aliased table when known, else the alias itself. -/
def resolveTableFromAlias (m : SelectModel) (aliasName : String) : String :=
  (assocFind m.aliasTables aliasName).getD aliasName

/-- Accumulator of the star-expansion loop: the seen-name set, the lineage
and output lists and the running ordinal (parser.py lines 2412-2417). -/
structure StarAcc where
  seen : List String
  lineage : List ColumnLineage
  outputs : List ColumnSchema
  ordinal : Nat

/-- One column of a star branch (the loop body of parser.py lines
2428-2450): a not-yet-seen column name is appended with an IDENTITY
lineage to the source column; seen names are skipped. -/
def starColStep (pq : String × String) (desc : String) (a : StarAcc) (c : String) :
    StarAcc :=
  if a.seen.contains c then a
  else
    { seen := a.seen ++ [c]
      outputs := a.outputs ++ [⟨c, "unknown", true, a.ordinal⟩]
      lineage := a.lineage ++
        [⟨c, [⟨pq.1, pq.2, c⟩], TransformationType.IDENTITY, desc⟩]
      ordinal := a.ordinal + 1 }

/-- Expansion of one source table inside a star branch (the loop of
parser.py lines 2428-2450, repeated verbatim at lines 2459-2484 and
2493-2514). -/
def starAddCols (ctx : ParserCtx) (regs : Registries) (tableName desc : String)
    (a : StarAcc) : StarAcc :=
  (inferTableColumnsUnified ctx regs tableName).foldl
    (starColStep (nsAndName ctx tableName "table") desc) a

/-- One step of the star-expansion loop over projection items
(parser.py lines 2419-2542).  The explicit-expression branch (lines
2515-2542) appends its column without consulting the seen-name set. -/
def starItemStep (ctx : ParserCtx) (regs : Registries) (m : SelectModel)
    (a : StarAcc) : SelectItem → StarAcc
  | .qualifiedStar aliasName =>
    let t := resolveTableFromAlias m aliasName
    if t = "unknown" then a else starAddCols ctx regs t (aliasName ++ ".*") a
  | .star =>
    (m.tables.filter (fun t => t != "unknown")).foldl
      (fun acc t => starAddCols ctx regs t "SELECT *" acc) a
  | .exprItem al refs text =>
    let nm := pyOr al ("col_" ++ natRepr a.ordinal)
    let refs :=
      if refs.isEmpty then
        [⟨"mssql://localhost/" ++ ctxDbFallback ctx, "LITERAL", text⟩]
      else refs
    { a with
      outputs := a.outputs ++ [⟨nm, "unknown", true, a.ordinal⟩]
      ordinal := a.ordinal + 1
      lineage := a.lineage ++ [⟨nm, refs, TransformationType.EXPRESSION, "SELECT " ++ text⟩] }

/-- `SqlParser._handle_star_expansion` (parser.py lines 2410-2544). -/
def handleStarExpansion (ctx : ParserCtx) (regs : Registries) (m : SelectModel) :
    List ColumnLineage × List ColumnSchema :=
  let a := m.items.foldl (starItemStep ctx regs m) ⟨[], [], [], 0⟩
  (a.lineage, a.outputs)

/-! ## Procedure body statement scan
(src/src/infotracker/parser_modules/procedures.py lines 441-486) -/

/-- Temp test of the scan (procedures.py line 456):
`obj.name.startswith("#") or "tempdb" in obj.name.lower()`. -/
def isTempObjName (n : String) : Bool :=
  strStarts n "#" || containsSub (lowerStr n) "tempdb"

/-- Auxiliary-table suffixes skipped by the scan (procedures.py line 462). -/
def auxSuffixes : List String :=
  ["_ins_upd_results", "_results", "_log", "_audit"]

/-- Auxiliary test (procedures.py line 462): any suffix occurring inside
the lower-cased basename. -/
def isAuxName (basename : String) : Bool :=
  auxSuffixes.any (fun s => containsSub basename s)

/-- Lower-cased last dot segment, `name.split(".")[-1].lower()`
(procedures.py lines 461, 471). -/
def basenameOf (n : String) : String :=
  lowerStr ((splitChar '.' n).getLastD n)

/-- Hint basename (procedures.py line 471): empty when no hint. -/
def procBasename (hint : Option String) : String :=
  match hint with
  | some h => basenameOf h
  | none => ""

/-- Expected table name derived from the hint
(procedures.py line 473): drop every `update_` and `load_` occurrence. -/
def expectedTable (pb : String) : String :=
  strReplace (strReplace pb "update_" "") "load_" ""

/-- Best-match test (procedures.py lines 472-475): the hint basename
starts with `update_` or `load_` and the table basename equals or ends
with the remainder. -/
def isBestMatch (hint : Option String) (tableBase : String) : Bool :=
  let pb := procBasename hint
  (strStarts pb "update_" || strStarts pb "load_") &&
    (tableBase = expectedTable pb || strEnds tableBase (expectedTable pb))

/-- Scan state of `_parse_procedure_body_statements`
(procedures.py lines 441-444). -/
structure ProcScan where
  lastPersistent : Option ObjectInfo
  bestMatch : Option ObjectInfo
  allInputs : List String

/-- One step of the scan loop (procedures.py lines 446-477) over the
parse result of one INSERT statement (`None` when the insert could not be
parsed): temp and auxiliary targets only contribute dependencies; other
targets become the last persistent candidate and, on a name match with
the hint, the best match. -/
def procScanStep (hint : Option String) (s : ProcScan) :
    Option ObjectInfo → ProcScan
  | none => s
  | some obj =>
    if isTempObjName obj.name then
      { s with allInputs := unionU s.allInputs obj.dependencies }
    else
      let tb := basenameOf obj.name
      if isAuxName tb then
        { s with allInputs := unionU s.allInputs obj.dependencies }
      else
        let s1 := { s with lastPersistent := some obj }
        let s2 := if isBestMatch hint tb then { s1 with bestMatch := some obj } else s1
        { s2 with allInputs := unionU s2.allInputs obj.dependencies }

/-- The scan over all parsed statements (procedures.py lines 441-477). -/
def procBodyScan (hint : Option String) (objs : List (Option ObjectInfo)) : ProcScan :=
  objs.foldl (procScanStep hint) ⟨none, none, []⟩

/-- `result_output = best_match_output or last_persistent_output`
(procedures.py line 480). -/
def procBodyResult (hint : Option String) (objs : List (Option ObjectInfo)) :
    Option ObjectInfo :=
  let s := procBodyScan hint objs
  match s.bestMatch with
  | some b => some b
  | none => s.lastPersistent

/-- The candidate targets of the scan in order: parsed, non-temp and not
auxiliary (characterization device for the theorems below). -/
def candTargets (objs : List (Option ObjectInfo)) : List ObjectInfo :=
  (objs.filterMap id).filter
    (fun o => !(isTempObjName o.name) && !(isAuxName (basenameOf o.name)))

/-- The candidates whose basename matches the hint pattern. -/
def bestCands (hint : Option String) (objs : List (Option ObjectInfo)) :
    List ObjectInfo :=
  (candTargets objs).filter (fun o => isBestMatch hint (basenameOf o.name))

/-- Modelled from the spec: the last statement of the body writing to a
persistent (non-temp) target wins as the output dataset.  This is the
behaviour claimed by the specification sentence, used for comparison with
`procBodyResult`. -/
def specLastPersistentTarget (objs : List (Option ObjectInfo)) : Option ObjectInfo :=
  objs.foldl
    (fun acc obj? =>
      match obj? with
      | some obj => if isTempObjName obj.name then acc else some obj
      | none => acc)
    none

/-! ## Preprocessor (src/src/infotracker/parser.py lines 539-661, mirrored
by src/src/infotracker/parser_modules/preprocess.py).  The regular
expressions of the source are translated to character-level matchers:
`\s` is any whitespace, `\w` a word character, case-insensitive literals
compare upper-cased characters. -/

/-- Consume a literal case-insensitively, returning the remainder. -/
def dropKwCI : List Char → List Char → Option (List Char)
  | l, [] => some l
  | [], _ :: _ => none
  | c :: l, k :: ks => if c.toUpper = k.toUpper then dropKwCI l ks else none

/-- Consume one-or-more whitespace (`\s+`), returning the remainder. -/
def ws1 : List Char → Option (List Char)
  | [] => none
  | c :: l => if c.isWhitespace then some (l.dropWhile Char.isWhitespace) else none

/-- Word boundary after a keyword (`\b`): end of input or a non-word
character next. -/
def boundaryAfter (l : List Char) : Bool :=
  match l with
  | [] => true
  | c :: _ => !(isWordChar c)

/-- Anchored case-insensitive keyword-with-boundary test,
regex `(?i)^KW\b` on an already stripped line. -/
def kwBoundary (s kw : String) : Bool :=
  match dropKwCI s.data kw.data with
  | some r => boundaryAfter r
  | none => false

/-- Anchored match of a keyword sequence separated by `\s+`. -/
def matchSeqHere : List Char → List String → Bool
  | _, [] => true
  | l, kw :: rest =>
    match dropKwCI l kw.data with
    | none => false
    | some r =>
      if rest.isEmpty then true
      else
        match ws1 r with
        | none => false
        | some r2 => matchSeqHere r2 rest

/-- Unanchored search for a keyword sequence separated by `\s+`
(the regex engine scanning every start position). -/
def existsSeqFrom : List Char → List String → Bool
  | [], kws => matchSeqHere [] kws
  | l@(_ :: rest), kws => matchSeqHere l kws || existsSeqFrom rest kws

/-- Line filter `(?i)^(DECLARE|SET|PRINT)\b` (parser.py line 602). -/
def declSetPrintLine (s : String) : Bool :=
  kwBoundary s "DECLARE" || kwBoundary s "SET" || kwBoundary s "PRINT"

/-- Line filter for the tempdb OBJECT_ID guard (parser.py line 607). -/
def ifObjectIdTempLine (s : String) : Bool :=
  match dropKwCI s.toList "IF".data with
  | none => false
  | some r =>
    match ws1 r with
    | none => false
    | some r2 => (dropKwCI r2 "OBJECT_ID('tempdb..#".data).isSome

/-- Line filter `(?i)^DROP\s+TABLE\s+#\w+` (parser.py line 608). -/
def dropTableTempLine (s : String) : Bool :=
  match dropKwCI s.toList "DROP".data with
  | none => false
  | some r =>
    match ws1 r with
    | none => false
    | some r2 =>
      match dropKwCI r2 "TABLE".data with
      | none => false
      | some r3 =>
        match ws1 r3 with
        | none => false
        | some r4 =>
          match r4 with
          | '#' :: r5 => !(r5.takeWhile isWordChar).isEmpty
          | _ => false

/-- Line filter `(?i)^IF\s+OBJECT_ID.*IS\s+NOT\s+NULL\s+DROP\s+TABLE`
(parser.py line 609). -/
def ifObjDropLine (s : String) : Bool :=
  match dropKwCI s.toList "IF".data with
  | none => false
  | some r =>
    match ws1 r with
    | none => false
    | some r2 =>
      match dropKwCI r2 "OBJECT_ID".data with
      | none => false
      | some r3 => existsSeqFrom r3 ["IS", "NOT", "NULL", "DROP", "TABLE"]

/-- Predicate gathering every skip condition of the preprocessing line
loop (parser.py lines 598-620), applied to the stripped line: DECLARE,
SET and PRINT lines, tempdb guard and drop patterns, GO separators and
USE lines are dropped. -/
def skipLine (line : String) : Bool :=
  let s := strTrim line
  declSetPrintLine s || ifObjectIdTempLine s || dropTableTempLine s ||
    ifObjDropLine s || upperStr s = "GO" || kwBoundary s "USE"

/-- `USE` line match of `_extract_database_from_use_statement` (parser.py
line 548): `USE` then whitespace, then `:db:`, `[db]` or a word. -/
def parseUseLine (line : String) : Option String :=
  match dropKwCI line.data "USE".data with
  | none => none
  | some r0 =>
    match ws1 r0 with
    | none => none
    | some r =>
      match r with
      | ':' :: r2 =>
        let inner := r2.takeWhile (fun c => c != ':')
        if inner.isEmpty then none
        else
          match r2.drop inner.length with
          | ':' :: _ => some (String.mk inner)
          | _ => none
      | '[' :: r2 =>
        let inner := r2.takeWhile (fun c => c != ']')
        if inner.isEmpty then none
        else
          match r2.drop inner.length with
          | ']' :: _ => some (String.mk inner)
          | _ => none
      | _ =>
        let w := r.takeWhile isWordChar
        if w.isEmpty then none else some (String.mk w)

/-- Loop of `_extract_database_from_use_statement` (parser.py lines
541-558) over the first lines: skip blank and comment lines, return the
first USE match, stop at the first line not starting with USE, DECLARE,
SET or PRINT (case-sensitive check, as in the source). -/
def scanUseLines : List String → Option String
  | [] => none
  | line :: rest =>
    let l := strTrim line
    if l = "" || strStarts l "--" then scanUseLines rest
    else
      match parseUseLine l with
      | some db => some db
      | none =>
        if strStarts l "USE" || strStarts l "DECLARE" || strStarts l "SET" ||
            strStarts l "PRINT" then
          scanUseLines rest
        else none

/-- `SqlParser._extract_database_from_use_statement` (parser.py lines
539-558): only the first ten lines are scanned. -/
def extractDatabaseFromUse (content : String) : Option String :=
  scanUseLines ((splitChar '\n' (strTrim content)).take 10)

/-- Trailing-token test for the INSERT INTO temp join (parser.py lines
626-630, group `(INSERT\s+INTO\s+#\w+)` at end of line): the last three
whitespace tokens are INSERT (possibly with junk glued in front, since
the regex group may start mid-token), exactly INTO, and a hash name. -/
def endsWithInsertIntoTemp (line : String) : Bool :=
  match (wsTokens line).reverse with
  | tw :: iw :: inw :: _ =>
    strEnds (upperStr inw) "INSERT" && upperStr iw = "INTO" &&
      (match tw.data with
       | '#' :: rest => !rest.isEmpty && rest.all isWordChar
       | _ => false)
  | _ => false

/-- Leading `EXEC\b` test of the join (parser.py line 627). -/
def execStartsLine (line : String) : Bool :=
  kwBoundary (strTrimLeft line) "EXEC"

/-- Fuelled line-joining loop for the two-line INSERT INTO hash-temp plus
EXEC pattern (parser.py lines 626-630): the whitespace (including blank
lines) between the INSERT line tail and the EXEC head collapses to one
space. -/
def joinIEAux : Nat → List String → List String
  | 0, ls => ls
  | _ + 1, [] => []
  | f + 1, l :: rest =>
    if endsWithInsertIntoTemp l then
      let blanks := rest.takeWhile (fun x => strTrim x = "")
      let rest2 := rest.drop blanks.length
      match rest2 with
      | [] => l :: joinIEAux f rest
      | nxt :: tail =>
        if execStartsLine nxt then
          joinIEAux f
            ((String.mk (dropRightWhileL Char.isWhitespace l.data) ++ " " ++
              strTrimLeft nxt) :: tail)
        else l :: joinIEAux f rest
    else l :: joinIEAux f rest

/-- The INSERT INTO temp EXEC join (parser.py lines 626-630). -/
def joinInsertExec (s : String) : String :=
  let ls := splitChar '\n' s
  String.intercalate "\n" (joinIEAux (ls.length + 1) ls)

/-- CREATE and ALTER object keywords of the cut pattern
(parser.py lines 654-655). -/
def cutKinds : List String := ["VIEW", "TABLE", "FUNCTION", "PROCEDURE"]

/-- Match one of the object keywords with a `\b` boundary. -/
def matchKindHere (l : List Char) : Bool :=
  cutKinds.any fun kw =>
    match dropKwCI l kw.data with
    | some r => boundaryAfter r
    | none => false

/-- Anchored `CREATE\s+(?:OR\s+ALTER\s+)?(VIEW|TABLE|FUNCTION|PROCEDURE)\b`
(parser.py line 654). -/
def matchCreateHere (l : List Char) : Bool :=
  match dropKwCI l "CREATE".data with
  | none => false
  | some r =>
    match ws1 r with
    | none => false
    | some r2 =>
      matchKindHere r2 ||
        (match dropKwCI r2 "OR".data with
         | none => false
         | some r3 =>
           match ws1 r3 with
           | none => false
           | some r4 =>
             match dropKwCI r4 "ALTER".data with
             | none => false
             | some r5 =>
               match ws1 r5 with
               | none => false
               | some r6 => matchKindHere r6)

/-- Anchored `ALTER\s+(VIEW|TABLE|FUNCTION|PROCEDURE)\b`
(parser.py line 655). -/
def matchAlterHere (l : List Char) : Bool :=
  match dropKwCI l "ALTER".data with
  | none => false
  | some r =>
    match ws1 r with
    | none => false
    | some r2 => matchKindHere r2

/-- Search for `\bKW\b` anywhere in the remainder, tracking whether the
previous character was a word character. -/
def containsWordFrom (prevIsWord : Bool) : List Char → String → Bool
  | [], _ => false
  | l@(c :: rest), kw =>
    (if prevIsWord then false
     else
       match dropKwCI l kw.data with
       | some r => boundaryAfter r
       | none => false)
      || containsWordFrom (isWordChar c) rest kw

/-- Anchored `SELECT\b.*?\bINTO\b` with DOTALL (parser.py line 656): the
previous character of the first INTO candidate is the final T of SELECT. -/
def matchSelectIntoHere (l : List Char) : Bool :=
  match dropKwCI l "SELECT".data with
  | none => false
  | some r => boundaryAfter r && containsWordFrom true r "INTO"

/-- Anchored `INSERT\s+INTO\b.*?\bEXEC\b` (parser.py line 657). -/
def matchInsertExecHere (l : List Char) : Bool :=
  match dropKwCI l "INSERT".data with
  | none => false
  | some r =>
    match ws1 r with
    | none => false
    | some r2 =>
      match dropKwCI r2 "INTO".data with
      | none => false
      | some r3 => boundaryAfter r3 && containsWordFrom true r3 "EXEC"

/-- Any of the four cut alternatives at this position. -/
def cutMatchesHere (l : List Char) : Bool :=
  matchCreateHere l || matchAlterHere l || matchSelectIntoHere l ||
    matchInsertExecHere l

/-- Leftmost match search of `pattern.search` for the cut. -/
def cutSearch : List Char → Option (List Char)
  | [] => none
  | l@(_ :: rest) => if cutMatchesHere l then some l else cutSearch rest

/-- `SqlParser._cut_to_first_statement` (parser.py lines 644-661):
everything before the first significant statement is trimmed; without a
match the text is returned unchanged. -/
def cutToFirstStatement (s : String) : String :=
  match cutSearch s.data with
  | some l => String.mk l
  | none => s

/-- `_strip_udf_options_between_returns_and_as` (parser.py lines 84-112),
wrapped in try/except at the call site.  Its rewrite output is
constrained by no claim of this development and any exception it raised
would be swallowed by `tryRewrites`, so it is modelled as the identity
rewrite that never fails. -/
def stripUdfOptionsE (s : String) : Except String String := .ok s

/-- `_rewrite_case_with_commas_to_iif` (parser.py lines 37-82), wrapped in
try/except at the call site; modelled, like `stripUdfOptionsE`, as the
identity rewrite that never fails. -/
def rewriteCaseCommasE (s : String) : Except String String := .ok s

/-- The final try/except of `_preprocess_sql` (parser.py lines 636-640):
a failure of the first rewrite keeps the input, a failure of the second
keeps the first rewrite result. -/
def tryRewrites (s : String) : String :=
  match stripUdfOptionsE s with
  | .error _ => s
  | .ok t =>
    match rewriteCaseCommasE t with
    | .error _ => t
    | .ok u => u

/-- `SqlParser._preprocess_sql` (parser.py lines 580-642): extract the USE
database (falling back to the default database), drop control lines, join
the two-line INSERT INTO temp EXEC pattern, cut to the first significant
statement and apply the guarded final rewrites.  Returns the new database
context together with the processed text. -/
def preprocessSql (ctx : ParserCtx) (sql : String) : Option String × String :=
  let dbFromUse := extractDatabaseFromUse sql
  let curDb :=
    match dbFromUse with
    | some db => if db = "" then ctx.default_database else some db
    | none => ctx.default_database
  let kept := (splitChar '\n' sql).filter (fun line => !(skipLine line))
  let processed := String.intercalate "\n" kept
  let processed := joinInsertExec processed
  let processed := cutToFirstStatement processed
  let processed := tryRewrites processed
  (curDb, processed)

/-! ## Adapter catch-all and extract loop
(src/InfoTracker/src/infotracker/adapters.py lines 29-62 and
src/src/infotracker/engine.py lines 145-180) -/

/-- OpenLineage dataset entry as shaped by the adapter payloads: namespace,
name, schema facet fields and column lineage facet fields. -/
structure OLDataset where
  ns : String
  name : String
  schemaFields : List (String × String)
  lineageFields : List (String × List ColumnReference)
  deriving DecidableEq, Repr

/-- OpenLineage payload shape of the adapter (adapters.py lines 43-61):
the `warnings` field is present only on error payloads. -/
structure OLPayload where
  eventType : String
  eventTime : String
  runId : String
  jobNamespace : String
  jobName : String
  inputs : List OLDataset
  outputs : List OLDataset
  warnings : Option (List String)
  deriving DecidableEq, Repr

/-- The error payload built by the except branch of
`MssqlAdapter.extract_lineage` (adapters.py lines 43-62). -/
def errorPayload (hint : Option String) (msg : String) : OLPayload :=
  { eventType := "COMPLETE"
    eventTime := "2025-01-01T00:00:00Z"
    runId := "00000000-0000-0000-0000-000000000000"
    jobNamespace := "infotracker/examples"
    jobName := "warehouse/sql/" ++ pyOr hint "unknown" ++ ".sql"
    inputs := []
    outputs := [⟨"mssql://localhost/InfoTrackerDW", pyOr hint "unknown", [], []⟩]
    warnings := some [msg] }

/-- `MssqlAdapter.extract_lineage` (adapters.py lines 29-62).  The parse
and generation of the success path (whose code raises on failure) is
modelled by its outcome `gen`; the catch-all turns every failure into the
error payload. -/
def extractLineage (gen : Except String OLPayload) (hint : Option String) : OLPayload :=
  match gen with
  | .ok p => p
  | .error e => errorPayload hint e

/-- Outcome of processing one file inside `Engine.run_extract` (engine.py
lines 145-180), as far as the warning accounting observes it: the parsed
object type and whether the emitted payload carried schema or column
lineage facet fields, plus the written output path. -/
structure FileOk where
  objectType : String
  hasSchemaFields : Bool
  hasColLineage : Bool
  outPath : String
  deriving DecidableEq, Repr

/-- Warning heuristic of the loop body (engine.py lines 169-176). -/
def fileOkWarns (r : FileOk) : Bool :=
  r.objectType = "unknown" || (!r.hasSchemaFields && !r.hasColLineage)

/-- Accumulator of the extract loop: warning count and written outputs. -/
structure ExtractAcc where
  warnings : Nat
  outputs : List String
  deriving DecidableEq, Repr

/-- One iteration of the extract loop (engine.py lines 145-180): an
exception anywhere in the body counts one warning and moves on; a
processed file appends its output and may count the heuristic warning. -/
def runFileStep (acc : ExtractAcc) : Except String FileOk → ExtractAcc
  | .error _ => { acc with warnings := acc.warnings + 1 }
  | .ok r =>
    let acc := { acc with outputs := acc.outputs ++ [r.outPath] }
    if fileOkWarns r then { acc with warnings := acc.warnings + 1 } else acc

/-- The extract loop over all files (engine.py lines 145-180). -/
def runExtractLoop (files : List (Except String FileOk)) : ExtractAcc :=
  files.foldl runFileStep ⟨0, []⟩

/-! ## Observers and fixtures used by the theorems -/

/-- Value of a little-endian digit list (proof inverse of
`natToRevDigits`). -/
def revVal : List Char → Nat
  | [] => 0
  | c :: r => undigit c + 10 * revVal r

/-- One SELECT ... INTO hash-temp event inside a file parse: the logical
temp name together with the columns, base dependencies and lineage the
statement produced. -/
structure SelIntoEv where
  name : String
  cols : List String
  deps : List String
  lineage : List ColumnLineage

/-- The temp state after a sequence of SELECT ... INTO commits, starting
from the empty per-file state. -/
def runSelInto (evs : List SelIntoEv) : TempState :=
  evs.foldl (fun st e => commitSelectInto st e.name e.cols e.deps e.lineage)
    TempState.empty

/-- A well-formed commit event: the logical name is its own simple key and
contains no at-sign (true of every hash-temp name the parser builds). -/
def goodEv (e : SelIntoEv) : Prop :=
  simpleKeyOf e.name = e.name ∧ '@' ∉ e.name.data

/-- Star-shaped projection items (both star branches of the expansion). -/
def isStarItem : SelectItem → Bool
  | .star => true
  | .qualifiedStar _ => true
  | .exprItem _ _ _ => false

/-- A default parser context: no dbt mode, no USE database, the default
database `InfoTrackerDW`, schema `dbo`, no registry. -/
def ctxDefault : ParserCtx :=
  ⟨false, none, some "InfoTrackerDW", some "dbo", none⟩

/-- Fixture: a persistent target written by an INSERT statement whose
basename matches the hint `update_foo`. -/
def objFoo : ObjectInfo :=
  ⟨"dbo.foo", "table", ⟨"mssql://localhost/InfoTrackerDW", "dbo.foo", []⟩, [], []⟩

/-- Fixture: a persistent target written by a later INSERT statement. -/
def objBar : ObjectInfo :=
  ⟨"dbo.bar", "table", ⟨"mssql://localhost/InfoTrackerDW", "dbo.bar", []⟩, [], []⟩

/-- Fixture: registries knowing table `dbo.t` with columns `a`, `b`. -/
def regsDup : Registries :=
  ⟨[], [], [("mssql://localhost/infotrackerdw.dbo.t", ["a", "b"])]⟩

/-- Fixture: the projection list `SELECT *, 1 AS a FROM dbo.t`. -/
def mDup : SelectModel :=
  ⟨[SelectItem.star, SelectItem.exprItem (some "a") [] "1 AS a"], [], ["dbo.t"]⟩

/-! ## Lemmas about the association-list model -/

theorem assocFind_assocSet_self {α : Type} (l : List (String × α)) (k : String) (v : α) :
    assocFind (assocSet l k v) k = some v := by
  induction l with
  | nil => simp [assocSet, assocFind]
  | cons p t ih =>
    obtain ⟨k0, v0⟩ := p
    by_cases h : k0 = k
    · simp [assocSet, assocFind, h]
    · simp [assocSet, assocFind, h, ih]

theorem assocFind_assocSet_ne {α : Type} (l : List (String × α)) {k k2 : String} (v : α)
    (h : k ≠ k2) : assocFind (assocSet l k v) k2 = assocFind l k2 := by
  induction l with
  | nil => simp [assocSet, assocFind, h]
  | cons p t ih =>
    obtain ⟨k0, v0⟩ := p
    by_cases h0 : k0 = k
    · subst h0
      simp [assocSet, assocFind, h]
    · simp [assocSet, assocFind, h0, ih]

theorem assocFind_mem {α : Type} {l : List (String × α)} {k : String} {v : α}
    (h : assocFind l k = some v) : (k, v) ∈ l := by
  induction l with
  | nil => simp [assocFind] at h
  | cons p t ih =>
    obtain ⟨k0, v0⟩ := p
    by_cases h0 : k0 = k
    · subst h0
      simp [assocFind] at h
      simp [h]
    · simp [assocFind, h0] at h
      exact List.mem_cons_of_mem _ (ih h)

theorem mem_assocSet {α : Type} {l : List (String × α)} {k : String} {v : α} :
    ∀ p ∈ assocSet l k v, p ∈ l ∨ p = (k, v) := by
  induction l with
  | nil => simp [assocSet]
  | cons q t ih =>
    obtain ⟨k0, v0⟩ := q
    intro p hp
    by_cases h0 : k0 = k
    · simp [assocSet, h0] at hp
      rcases hp with h | h
      · subst h0; right; simp [h]
      · left; exact List.mem_cons_of_mem _ h
    · simp [assocSet, h0] at hp
      rcases hp with h | h
      · left; simp [h]
      · rcases ih p h with h1 | h1
        · left; exact List.mem_cons_of_mem _ h1
        · right; exact h1

theorem mem_bump {l : List (String × Nat)} {db : String} {w : Nat} :
    ∀ e ∈ bump l db w, e.1 = db ∨ e ∈ l := by
  induction l with
  | nil => simp [bump]
  | cons q t ih =>
    obtain ⟨k0, n0⟩ := q
    intro e he
    by_cases h0 : k0 = db
    · simp [bump, h0] at he
      rcases he with h | h
      · left; simp [h]
      · right; exact List.mem_cons_of_mem _ h
    · simp [bump, h0] at he
      rcases he with h | h
      · right; simp [h]
      · rcases ih e h with h1 | h1
        · left; exact h1
        · right; exact List.mem_cons_of_mem _ h1

/-! ## Lemmas about the histogram dominance test -/

theorem maxEnt_eq_none {l : List (String × Nat)} : maxEnt l = none ↔ l = [] := by
  cases l with
  | nil => simp [maxEnt]
  | cons e t =>
    simp only [maxEnt]
    cases maxEnt t with
    | none => simp
    | some m =>
      by_cases h : m.2 > e.2 <;> simp [h]

theorem maxEnt_mem {l : List (String × Nat)} {e : String × Nat}
    (h : maxEnt l = some e) : e ∈ l := by
  induction l generalizing e with
  | nil => simp [maxEnt] at h
  | cons a t ih =>
    simp only [maxEnt] at h
    cases hm : maxEnt t with
    | none =>
      rw [hm] at h
      simp at h
      simp [h]
    | some m =>
      rw [hm] at h
      by_cases hc : m.2 > a.2
      · simp [hc] at h
        exact List.mem_cons_of_mem _ (h ▸ ih hm)
      · simp [hc] at h
        simp [h]

theorem maxEnt_ub {l : List (String × Nat)} {e : String × Nat}
    (h : maxEnt l = some e) : ∀ x ∈ l, x.2 ≤ e.2 := by
  induction l generalizing e with
  | nil => simp [maxEnt] at h
  | cons a t ih =>
    simp only [maxEnt] at h
    cases hm : maxEnt t with
    | none =>
      rw [hm] at h
      simp at h
      subst h
      intro x hx
      rcases List.mem_cons.mp hx with hx | hx
      · subst hx; exact le_refl _
      · rw [maxEnt_eq_none.mp hm] at hx
        simp at hx
    | some m =>
      rw [hm] at h
      by_cases hc : m.2 > a.2
      · simp [hc] at h
        subst h
        intro x hx
        rcases List.mem_cons.mp hx with hx | hx
        · subst hx; exact le_of_lt hc
        · exact ih hm x hx
      · simp [hc] at h
        subst h
        intro x hx
        rcases List.mem_cons.mp hx with hx | hx
        · subst hx; exact le_refl _
        · exact le_trans (ih hm x hx) (not_lt.mp hc)

theorem two_le_countP {α : Type} {l : List α} {p : α → Bool} {a b : α}
    (ha : a ∈ l) (hb : b ∈ l) (hne : a ≠ b) (pa : p a = true) (pb : p b = true) :
    2 ≤ l.countP p := by
  obtain ⟨s, t, rfl⟩ := List.append_of_mem ha
  have hb2 : b ∈ s ∨ b ∈ t := by
    rcases List.mem_append.mp hb with h | h
    · exact Or.inl h
    · rcases List.mem_cons.mp h with h | h
      · exact absurd h.symm hne
      · exact Or.inr h
  rw [List.countP_append, List.countP_cons, pa]
  simp only [if_pos trivial, if_true]
  rcases hb2 with h | h
  · have : 1 ≤ s.countP p := List.countP_pos_iff.mpr ⟨b, h, pb⟩
    omega
  · have : 1 ≤ t.countP p := List.countP_pos_iff.mpr ⟨b, h, pb⟩
    omega

theorem key_nodup_unique {l : List (String × Nat)} (hnd : (l.map Prod.fst).Nodup)
    {k : String} {x y : Nat} (hx : (k, x) ∈ l) (hy : (k, y) ∈ l) : x = y := by
  induction l with
  | nil => simp at hx
  | cons a t ih =>
    simp only [List.map_cons, List.nodup_cons] at hnd
    rcases List.mem_cons.mp hx with hx | hx <;> rcases List.mem_cons.mp hy with hy | hy
    · rw [← hx] at hy
      exact ((Prod.mk.injEq _ _ _ _).mp hy).2.symm
    · exfalso
      apply hnd.1
      rw [← hx]
      exact List.mem_map.mpr ⟨(k, y), hy, rfl⟩
    · exfalso
      apply hnd.1
      rw [← hy]
      exact List.mem_map.mpr ⟨(k, x), hx, rfl⟩
    · exact ih hnd.2 hx hy

theorem nodup_all_eq_length_le_one {α : Type} {l : List α} {x : α}
    (hnd : l.Nodup) (hall : ∀ e ∈ l, e = x) : l.length ≤ 1 := by
  match l with
  | [] => simp
  | [a] => simp
  | a :: b :: t =>
    exfalso
    have ha : a = x := hall a (by simp)
    have hb : b = x := hall b (by simp)
    simp [List.nodup_cons] at hnd
    exact hnd.1.1 (ha.trans hb.symm)

/-- Semantic reading of the `most_common(2)` dominance test: with unique
histogram keys, `strictTop` returns a database exactly when that database
has a strictly higher count than every other entry. -/
theorem strictTop_eq_some_iff {l : List (String × Nat)}
    (hnd : (l.map Prod.fst).Nodup) (db : String) :
    strictTop l = some db ↔
      ∃ n, (db, n) ∈ l ∧ ∀ e ∈ l, e.1 ≠ db → e.2 < n := by
  constructor
  · intro h
    simp only [strictTop] at h
    cases hm : maxEnt l with
    | none => rw [hm] at h; simp at h
    | some km =>
      obtain ⟨k, m⟩ := km
      rw [hm] at h
      by_cases hc : l.countP (fun e => e.2 = m) = 1
      · simp [hc] at h
        subst h
        refine ⟨m, maxEnt_mem hm, ?_⟩
        intro e he hne
        rcases lt_or_eq_of_le (maxEnt_ub hm e he) with hlt | heq
        · exact hlt
        · exfalso
          have h2 : 2 ≤ l.countP (fun e => e.2 = m) := by
            refine two_le_countP (maxEnt_mem hm) he ?_ (by simp) (by simp [heq])
            intro hcon
            exact hne (by rw [← hcon])
          omega
      · simp [hc] at h
  · rintro ⟨n, hmem, hdom⟩
    have hne : l ≠ [] := by
      intro h
      rw [h] at hmem
      simp at hmem
    cases hm : maxEnt l with
    | none => exact absurd (maxEnt_eq_none.mp hm) hne
    | some km =>
      obtain ⟨k, m⟩ := km
      have hkmem : (k, m) ∈ l := maxEnt_mem hm
      have hk : k = db := by
        by_contra hkne
        have h1 : m < n := hdom (k, m) hkmem hkne
        have h2 : n ≤ m := maxEnt_ub hm (db, n) hmem
        omega
      subst hk
      have hmn : m = n := key_nodup_unique hnd hkmem hmem
      subst hmn
      have hcount : l.countP (fun e => e.2 = m) = 1 := by
        have hfil : ∀ e ∈ l.filter (fun e : String × Nat => e.2 = m), e = (k, m) := by
          intro e he
          have he1 := List.mem_filter.mp he
          obtain ⟨e1, e2⟩ := e
          simp at he1
          by_cases hek : e1 = k
          · simp [hek, he1.2]
          · exfalso
            have := hdom (e1, e2) he1.1 hek
            omega
        have hnodup : (l.filter (fun e : String × Nat => e.2 = m)).Nodup :=
          (List.Nodup.of_map _ hnd).filter _
        have hle := nodup_all_eq_length_le_one hnodup hfil
        have hge : 1 ≤ (l.filter (fun e : String × Nat => e.2 = m)).length := by
          have : (k, m) ∈ l.filter (fun e : String × Nat => e.2 = m) :=
            List.mem_filter.mpr ⟨hkmem, by simp⟩
          exact List.length_pos.mpr (List.ne_nil_of_mem this)
        rw [List.countP_eq_length_filter]
        omega
      simp [strictTop, hm, hcount]

/-- C4, amended: `resolve` consults a hard kind-specific entry, then a hard
wildcard entry, then the selected soft histogram when one database counts
strictly higher than every other entry, and otherwise returns the
caller-provided fallback when that is a nonempty string and the built-in
default `InfoTrackerDW` when the fallback is absent or empty. -/
theorem claim_C4_amended (reg : ObjectDbRegistry) (t st : String) (fb : Option String)
    (hnd : ((softPick reg (keyOf t st) (wildOf st)).map Prod.fst).Nodup) :
    (∀ db, assocFind reg.hard (keyOf t st) = some db →
      reg.resolve t st fb = db) ∧
    (assocFind reg.hard (keyOf t st) = none →
      ∀ db, assocFind reg.hard (wildOf st) = some db → reg.resolve t st fb = db) ∧
    (assocFind reg.hard (keyOf t st) = none →
      assocFind reg.hard (wildOf st) = none →
      ∀ db n, (db, n) ∈ softPick reg (keyOf t st) (wildOf st) →
        (∀ e ∈ softPick reg (keyOf t st) (wildOf st), e.1 ≠ db → e.2 < n) →
        reg.resolve t st fb = db) ∧
    (assocFind reg.hard (keyOf t st) = none →
      assocFind reg.hard (wildOf st) = none →
      (¬ ∃ db n, (db, n) ∈ softPick reg (keyOf t st) (wildOf st) ∧
        ∀ e ∈ softPick reg (keyOf t st) (wildOf st), e.1 ≠ db → e.2 < n) →
      reg.resolve t st fb = fallbackOr fb) := by
  refine ⟨?_, ?_, ?_, ?_⟩
  · intro db h
    simp [ObjectDbRegistry.resolve, h]
  · intro h1 db h2
    simp [ObjectDbRegistry.resolve, h1, h2]
  · intro h1 h2 db n hmem hdom
    have hs : strictTop (softPick reg (keyOf t st) (wildOf st)) = some db :=
      (strictTop_eq_some_iff hnd db).mpr ⟨n, hmem, hdom⟩
    simp [ObjectDbRegistry.resolve, h1, h2, hs]
  · intro h1 h2 hno
    have hs : strictTop (softPick reg (keyOf t st) (wildOf st)) = none := by
      cases hst : strictTop (softPick reg (keyOf t st) (wildOf st)) with
      | none => rfl
      | some db =>
        exfalso
        obtain ⟨n, hmem, hdom⟩ := (strictTop_eq_some_iff hnd db).mp hst
        exact hno ⟨db, n, hmem, hdom⟩
    simp [ObjectDbRegistry.resolve, h1, h2, hs]

/-- C4, counterexample to the claim as stated: with no matching entry and
the caller-provided fallback being the empty string, `resolve` does not
return the caller-provided fallback but the built-in default. -/
theorem claim_C4_counterexample :
    ObjectDbRegistry.resolve ⟨[], []⟩ "table" "dbo.t" (some "") = "InfoTrackerDW" ∧
      ("InfoTrackerDW" : String) ≠ "" := by
  constructor
  · rfl
  · decide

/-- C4, witness: the amended theorem applied to a one-entry registry. -/
theorem claim_C4_witness :
    ObjectDbRegistry.resolve ⟨[("table::dbo.t", "DB1")], []⟩ "table" "dbo.t" none = "DB1" :=
  (claim_C4_amended ⟨[("table::dbo.t", "DB1")], []⟩ "table" "dbo.t" none
    (by decide)).1 "DB1" (by decide)

/-! ## Nonemptiness of learned registry entries (towards C10) -/

theorem applyEvent_pres (reg : ObjectDbRegistry) (ev : LearnEvent)
    (h1 : ∀ p ∈ reg.hard, p.2 ≠ "") (h2 : ∀ q ∈ reg.soft, ∀ e ∈ q.2, e.1 ≠ "") :
    (∀ p ∈ (reg.applyEvent ev).hard, p.2 ≠ "") ∧
      (∀ q ∈ (reg.applyEvent ev).soft, ∀ e ∈ q.2, e.1 ≠ "") := by
  cases ev with
  | fromCreate t st db =>
    by_cases hg : st = "" ∨ db = ""
    · simp only [ObjectDbRegistry.applyEvent, if_pos hg]
      exact ⟨h1, h2⟩
    · simp only [ObjectDbRegistry.applyEvent, if_neg hg]
      refine ⟨?_, h2⟩
      intro p hp
      rcases mem_assocSet p hp with h | h
      · exact h1 p h
      · subst h
        simp only [ne_eq]
        intro hdb
        exact hg (Or.inr hdb)
  | fromTargets st db =>
    by_cases hg : st = "" ∨ db = ""
    · simp only [ObjectDbRegistry.applyEvent, if_pos hg]
      exact ⟨h1, h2⟩
    · simp only [ObjectDbRegistry.applyEvent, if_neg hg]
      constructor
      · intro p hp
        rcases mem_assocSet p hp with h | h
        · exact h1 p h
        · subst h
          intro hdb
          exact hg (Or.inr hdb)
      · intro q hq e he
        rcases mem_assocSet q hq with h | h
        · exact h2 q h e he
        · subst h
          rcases mem_bump e he with h | h
          · rw [h]
            intro hdb
            exact hg (Or.inr hdb)
          · cases hf : assocFind reg.soft (wildOf st) with
            | none => rw [hf] at h; simp at h
            | some hist =>
              rw [hf] at h
              exact h2 _ (assocFind_mem hf) e h
  | fromReferences st db =>
    by_cases hg : st = "" ∨ db = ""
    · simp only [ObjectDbRegistry.applyEvent, if_pos hg]
      exact ⟨h1, h2⟩
    · simp only [ObjectDbRegistry.applyEvent, if_neg hg]
      refine ⟨h1, ?_⟩
      intro q hq e he
      rcases mem_assocSet q hq with h | h
      · exact h2 q h e he
      · subst h
        rcases mem_bump e he with h | h
        · rw [h]
          intro hdb
          exact hg (Or.inr hdb)
        · cases hf : assocFind reg.soft (wildOf st) with
          | none => rw [hf] at h; simp at h
          | some hist =>
            rw [hf] at h
            exact h2 _ (assocFind_mem hf) e h

theorem ofEvents_wf (evs : List LearnEvent) :
    (∀ p ∈ (ObjectDbRegistry.ofEvents evs).hard, p.2 ≠ "") ∧
      (∀ q ∈ (ObjectDbRegistry.ofEvents evs).soft, ∀ e ∈ q.2, e.1 ≠ "") := by
  have main : ∀ (l : List LearnEvent) (reg : ObjectDbRegistry),
      (∀ p ∈ reg.hard, p.2 ≠ "") → (∀ q ∈ reg.soft, ∀ e ∈ q.2, e.1 ≠ "") →
      (∀ p ∈ (l.foldl ObjectDbRegistry.applyEvent reg).hard, p.2 ≠ "") ∧
        (∀ q ∈ (l.foldl ObjectDbRegistry.applyEvent reg).soft, ∀ e ∈ q.2, e.1 ≠ "") := by
    intro l
    induction l with
    | nil => intro reg h1 h2; exact ⟨h1, h2⟩
    | cons ev rest ih =>
      intro reg h1 h2
      have hstep := applyEvent_pres reg ev h1 h2
      exact ih (reg.applyEvent ev) hstep.1 hstep.2
  exact main evs ObjectDbRegistry.empty (by simp [ObjectDbRegistry.empty])
    (by simp [ObjectDbRegistry.empty])

theorem softPick_mem {reg : ObjectDbRegistry} {k1 k2 : String} :
    ∀ e ∈ softPick reg k1 k2, ∃ k h, (k, h) ∈ reg.soft ∧ e ∈ h := by
  intro e he
  unfold softPick at he
  have hgetD : e ∈ (assocFind reg.soft k2).getD [] →
      ∃ k h, (k, h) ∈ reg.soft ∧ e ∈ h := by
    intro h
    cases hf2 : assocFind reg.soft k2 with
    | none => rw [hf2] at h; simp at h
    | some l2 =>
      rw [hf2] at h
      rw [Option.getD_some] at h
      exact ⟨k2, l2, assocFind_mem hf2, h⟩
  split at he
  case h_1 l hf =>
    split at he
    · exact hgetD he
    · exact ⟨k1, l, assocFind_mem hf, he⟩
  case h_2 hf => exact hgetD he

/-- C10: on every registry state reachable through the learning API,
`resolve` returns a nonempty database name; and when neither hard map
matches and the soft histogram has no strict majority, the `None`
fallback yields the built-in default `InfoTrackerDW`. -/
theorem claim_C10 (evs : List LearnEvent) (t st : String) :
    ObjectDbRegistry.resolve (ObjectDbRegistry.ofEvents evs) t st none ≠ "" ∧
      (assocFind (ObjectDbRegistry.ofEvents evs).hard (keyOf t st) = none →
        assocFind (ObjectDbRegistry.ofEvents evs).hard (wildOf st) = none →
        strictTop (softPick (ObjectDbRegistry.ofEvents evs) (keyOf t st) (wildOf st)) = none →
        ObjectDbRegistry.resolve (ObjectDbRegistry.ofEvents evs) t st none = "InfoTrackerDW") := by
  obtain ⟨hh, hs⟩ := ofEvents_wf evs
  set reg := ObjectDbRegistry.ofEvents evs with hreg
  constructor
  · simp only [ObjectDbRegistry.resolve]
    cases h1 : assocFind reg.hard (keyOf t st) with
    | some db => exact hh _ (assocFind_mem h1)
    | none =>
      cases h2 : assocFind reg.hard (wildOf st) with
      | some db => exact hh _ (assocFind_mem h2)
      | none =>
        cases h3 : strictTop (softPick reg (keyOf t st) (wildOf st)) with
        | some db =>
          simp only []
          have hmem : ∃ n, (db, n) ∈ softPick reg (keyOf t st) (wildOf st) := by
            simp only [strictTop] at h3
            cases hm : maxEnt (softPick reg (keyOf t st) (wildOf st)) with
            | none => rw [hm] at h3; simp at h3
            | some km =>
              rw [hm] at h3
              by_cases hc :
                  (softPick reg (keyOf t st) (wildOf st)).countP (fun e => e.2 = km.2) = 1
              · refine ⟨km.2, ?_⟩
                have := maxEnt_mem hm
                have hk : km.1 = db := by
                  obtain ⟨a, b⟩ := km
                  simp [hc] at h3
                  exact h3
                rw [← hk]
                simpa using this
              · obtain ⟨a, b⟩ := km
                simp [hc] at h3
          obtain ⟨n, hn⟩ := hmem
          obtain ⟨k, hist, hkh, hehist⟩ := softPick_mem _ hn
          exact hs _ hkh _ hehist
        | none => simp [fallbackOr]
  · intro h1 h2 h3
    simp [ObjectDbRegistry.resolve, h1, h2, h3, fallbackOr]

/-- C10, witness: the empty event list at a concrete key. -/
theorem claim_C10_witness :
    ObjectDbRegistry.resolve (ObjectDbRegistry.ofEvents []) "table" "dbo.t" none ≠ "" ∧
      ObjectDbRegistry.resolve (ObjectDbRegistry.ofEvents []) "table" "dbo.t" none =
        "InfoTrackerDW" :=
  ⟨(claim_C10 [] "table" "dbo.t").1,
   (claim_C10 [] "table" "dbo.t").2 (by decide) (by decide) (by decide)⟩

/-! ## C3: pseudo-catalog prefixes in the FQN resolver -/

/-- C3, counterexample to the claim as stated: the resolver strips only
the pseudo catalogs `View`, `Function` and `Procedure`; a raw identifier
with the first segment `Table` (or `StoredProcedure`) keeps that segment
as the database of the namespace URI. -/
theorem claim_C3_counterexample :
    nsAndName ctxDefault "Table.dbo.TrialBalance" "table" =
        ("mssql://localhost/Table", "dbo.TrialBalance") ∧
      nsAndName ctxDefault "StoredProcedure.dbo.Upd" "procedure" =
        ("mssql://localhost/StoredProcedure", "dbo.Upd") := by
  constructor
  · decide
  · decide

/-- C3, amended: a raw identifier with exactly three nonempty segments
whose first segment lower-cases to `view`, `function` or `procedure`
resolves exactly as the identifier without that segment; the prefix never
reaches the database portion.  `Table.` and `StoredProcedure.` are not in
the pseudo set and do become the database (see the counterexample). -/
theorem claim_C3_amended (ctx : ParserCtx) (name r p s t hint : String)
    (hsplit : (splitChar '.' name).filter (fun x => x != "") = [p, s, t])
    (hpseudo : lowerStr p ∈ pseudoCatalogs)
    (htemp : isTempName name = false)
    (hrsplit : (splitChar '.' r).filter (fun x => x != "") = [s, t])
    (hrtemp : isTempName r = false) :
    nsAndName ctx name hint = nsAndName ctx r hint := by
  have hcontains : pseudoCatalogs.contains (lowerStr p) = true :=
    List.elem_eq_true_of_mem hpseudo
  simp only [nsAndName, htemp, hsplit, hrsplit]
  simp [hpseudo, hrtemp]

/-- C3, witness: the amended theorem at the prefix `View`. -/
theorem claim_C3_witness :
    nsAndName ctxDefault "View.dbo.X" "view" = nsAndName ctxDefault "dbo.X" "view" :=
  claim_C3_amended ctxDefault "View.dbo.X" "dbo.X" "View" "dbo" "X" "view"
    (by decide) (by decide) (by decide) (by decide) (by decide)

/-! ## C6: INSERT INTO ... EXEC lineage -/

/-- C6, counterexample to the claim as stated: with a target column list
present, each lineage entry's single input field carries the output
column's own name, not the star. -/
theorem claim_C6_counterexample :
    ((parseInsertExec ctxDefault ⟨"dbo.Target", some "EXEC dbo.P", ["c1"]⟩).toOption.map
        (fun o => o.lineage.map (fun lin => lin.input_fields.map ColumnReference.column_name))) =
      some [["c1"]] ∧ ("c1" : String) ≠ "*" := by
  constructor
  · decide
  · decide

/-- C6, amended: when the EXEC body yields a procedure name, the output
columns are the cleaned target column list when one is present and the
two placeholders otherwise; every lineage entry has kind EXEC and exactly
one input field (procedure FQN, star) when no target column list is
present and (procedure FQN, the column's own name) when one is. -/
theorem claim_C6_amended (ctx : ParserCtx) (rawTarget execText : String)
    (cols : List String) (pn : String) (hpn : execProcName ctx execText = some pn) :
    ∃ obj, parseInsertExec ctx ⟨rawTarget, some execText, cols⟩ = .ok obj ∧
      obj.schema.columns =
        (if (targetColumnsOf cols).isEmpty then
          [⟨"output_col_1", "unknown", true, 0⟩, ⟨"output_col_2", "unknown", true, 1⟩]
        else targetColumnsOf cols) ∧
      obj.dependencies = [pn] ∧
      obj.lineage.map ColumnLineage.output_column =
        obj.schema.columns.map ColumnSchema.name ∧
      ∀ lin ∈ obj.lineage,
        lin.transformation_type = TransformationType.EXEC ∧
        lin.input_fields =
          [⟨(nsAndName ctx pn "table").1, (nsAndName ctx pn "table").2,
            if (targetColumnsOf cols).isEmpty then "*" else lin.output_column⟩] := by
  simp only [parseInsertExec, hpn]
  refine ⟨_, rfl, rfl, rfl, ?_, ?_⟩
  · simp [List.map_map]
  · intro lin hlin
    simp only [List.mem_map] at hlin
    obtain ⟨col, _, hcol⟩ := hlin
    subst hcol
    refine ⟨rfl, ?_⟩
    by_cases he : (targetColumnsOf cols).isEmpty <;> simp [he]

/-- C6, witness: the amended theorem at a concrete statement with a
target column list. -/
theorem claim_C6_witness :
    execProcName ctxDefault "EXEC dbo.P" = some "InfoTrackerDW.dbo.P" ∧
      ∃ obj,
        parseInsertExec ctxDefault ⟨"dbo.Target", some "EXEC dbo.P", ["c1"]⟩ = .ok obj ∧
        obj.schema.columns =
          (if (targetColumnsOf ["c1"]).isEmpty then
            [⟨"output_col_1", "unknown", true, 0⟩, ⟨"output_col_2", "unknown", true, 1⟩]
          else targetColumnsOf ["c1"]) ∧
        obj.dependencies = ["InfoTrackerDW.dbo.P"] ∧
        obj.lineage.map ColumnLineage.output_column =
          obj.schema.columns.map ColumnSchema.name ∧
        ∀ lin ∈ obj.lineage,
          lin.transformation_type = TransformationType.EXEC ∧
          lin.input_fields =
            [⟨(nsAndName ctxDefault "InfoTrackerDW.dbo.P" "table").1,
              (nsAndName ctxDefault "InfoTrackerDW.dbo.P" "table").2,
              if (targetColumnsOf ["c1"]).isEmpty then "*" else lin.output_column⟩] :=
  ⟨by decide,
   claim_C6_amended ctxDefault "dbo.Target" "EXEC dbo.P" ["c1"] "InfoTrackerDW.dbo.P"
     (by decide)⟩

/-! ## Set-style list lemmas -/

theorem mem_insertU {l : List String} {x y : String} :
    y ∈ insertU l x ↔ y ∈ l ∨ y = x := by
  simp only [insertU]
  by_cases h : x ∈ l
  · rw [if_pos h]
    constructor
    · exact Or.inl
    · rintro (hy | rfl)
      · exact hy
      · exact h
  · rw [if_neg h]
    simp

theorem mem_unionU {xs : List String} :
    ∀ {l : List String} {y : String}, y ∈ unionU l xs ↔ y ∈ l ∨ y ∈ xs := by
  induction xs with
  | nil => intro l y; simp [unionU]
  | cons x rest ih =>
    intro l y
    have : unionU l (x :: rest) = unionU (insertU l x) rest := rfl
    rw [this, ih, mem_insertU]
    constructor
    · rintro ((h | h) | h)
      · exact Or.inl h
      · exact Or.inr (by simp [h])
      · exact Or.inr (by simp [h])
    · rintro (h | h)
      · exact Or.inl (Or.inl h)
      · rcases List.mem_cons.mp h with h | h
        · exact Or.inl (Or.inr h)
        · exact Or.inr h

/-! ## C2: temp dependency expansion -/

/-- C2: after a SELECT ... INTO of a hash temp records base dependencies B
for its simple key, an INSERT ... SELECT whose extracted dependency set is
exactly the temp reference expands to exactly B; and when B contains no
temp-shaped name (base dependencies are persistent), the temp reference
itself is absent from the expanded set. -/
theorem claim_C2 (st : TempState) (tname : String) (cols : List String)
    (B : List String) (lin : List ColumnLineage) (d : String)
    (hd : isTempDep d = true) (hkey : simpleKeyOf d = simpleKeyOf tname) :
    (∀ x, x ∈ expandTempDeps (commitSelectInto st tname cols B lin).temp_sources [d] ↔
      x ∈ B) ∧
    ((∀ b ∈ B, isTempDep b = false) →
      d ∉ expandTempDeps (commitSelectInto st tname cols B lin).temp_sources [d]) := by
  have hsrc : (commitSelectInto st tname cols B lin).temp_sources =
      assocSet st.temp_sources (simpleKeyOf tname) B := rfl
  have hfind :
      assocFind (commitSelectInto st tname cols B lin).temp_sources (simpleKeyOf d) =
        some B := by
    rw [hsrc, hkey]
    exact assocFind_assocSet_self _ _ _
  have hexp : expandTempDeps (commitSelectInto st tname cols B lin).temp_sources [d] =
      if B.isEmpty then [] else unionU [] B := by
    simp [expandTempDeps, hd, hfind]
  constructor
  · intro x
    rw [hexp]
    by_cases hB : B.isEmpty
    · rw [if_pos hB, List.isEmpty_iff.mp hB]
    · rw [if_neg hB, mem_unionU]
      simp
  · intro hall hmem
    rw [hexp] at hmem
    by_cases hB : B.isEmpty
    · rw [if_pos hB] at hmem
      simp at hmem
    · rw [if_neg hB, mem_unionU] at hmem
      rcases hmem with h | h
      · simp at h
      · rw [hall d h] at hd
        exact Bool.false_ne_true hd

/-- C2, witness: the theorem applied to a concrete commit of #t with base
dependencies dbo.A and dbo.B, read back through tempdb..#t. -/
theorem claim_C2_witness :
    isTempDep "tempdb..#t" = true ∧
      ("dbo.A" ∈ expandTempDeps (commitSelectInto TempState.empty "tempdb..#t" ["a"]
          ["dbo.A", "dbo.B"] []).temp_sources ["tempdb..#t"] ↔
        "dbo.A" ∈ (["dbo.A", "dbo.B"] : List String)) :=
  ⟨by decide,
   (claim_C2 TempState.empty "tempdb..#t" ["a"] ["dbo.A", "dbo.B"] [] "tempdb..#t"
     (by decide) rfl).1 "dbo.A"⟩

/-! ## C9: totality of the preprocessor -/

/-- C9: the preprocessing pipeline is a total function: for every parser
context and input string it returns a database context and a processed
string (the guarded final rewrites are wrapped by `tryRewrites`, so no
failure escapes); the empty input yields the empty output, and an input
consisting only of a control line also collapses to the empty string. -/
theorem claim_C9 :
    (∀ (ctx : ParserCtx) (sql : String), ∃ db out, preprocessSql ctx sql = (db, out)) ∧
      preprocessSql ctxDefault "" = (some "InfoTrackerDW", "") ∧
      preprocessSql ctxDefault "SET NOCOUNT ON" = (some "InfoTrackerDW", "") := by
  refine ⟨fun ctx sql => ⟨_, _, rfl⟩, ?_, ?_⟩
  · decide
  · decide

/-! ## C8: adapter catch-all and extract loop accounting -/

theorem runExtractLoop_fold (files : List (Except String FileOk)) :
    ∀ acc : ExtractAcc,
      (files.foldl runFileStep acc).warnings =
        acc.warnings +
          (files.countP (fun f => match f with | .error _ => true | .ok _ => false) +
            files.countP (fun f => match f with | .ok r => fileOkWarns r | .error _ => false)) ∧
      (files.foldl runFileStep acc).outputs =
        acc.outputs ++
          files.filterMap (fun f => match f with | .ok r => some r.outPath | .error _ => none) := by
  induction files with
  | nil => intro acc; simp
  | cons f rest ih =>
    intro acc
    rw [List.foldl_cons]
    obtain ⟨hw, ho⟩ := ih (runFileStep acc f)
    rw [hw, ho]
    cases f with
    | error e =>
      constructor
      · simp only [runFileStep, List.countP_cons]
        simp
        omega
      · simp [runFileStep]
    | ok r =>
      by_cases hwarn : fileOkWarns r
      · constructor
        · simp only [runFileStep, List.countP_cons]
          simp [hwarn]
          omega
        · simp [runFileStep, hwarn]
      · constructor
        · simp only [runFileStep, List.countP_cons]
          simp [hwarn]
        · simp [runFileStep, hwarn]

/-- C8: the adapter entry point is total; on any failure it returns the
OpenLineage-shaped error payload carrying a warnings array, empty inputs
and one output dataset with empty schema and column lineage facets; and
the extract loop processes every file, counting one warning per failed
file (plus the empty-facet heuristic warnings) while the written outputs
are exactly those of the successfully processed files. -/
theorem claim_C8 :
    (∀ (hint : Option String) (e : String),
      (extractLineage (.error e) hint).warnings = some [e] ∧
        (extractLineage (.error e) hint).eventType = "COMPLETE" ∧
        (extractLineage (.error e) hint).inputs = [] ∧
        (extractLineage (.error e) hint).outputs.map
          (fun o => (o.schemaFields, o.lineageFields)) = [([], [])]) ∧
      (∀ (gen : Except String OLPayload) (hint : Option String),
        ∃ p, extractLineage gen hint = p) ∧
      (∀ files : List (Except String FileOk),
        (runExtractLoop files).warnings =
          files.countP (fun f => match f with | .error _ => true | .ok _ => false) +
            files.countP (fun f => match f with | .ok r => fileOkWarns r | .error _ => false) ∧
        (runExtractLoop files).outputs =
          files.filterMap (fun f => match f with | .ok r => some r.outPath | .error _ => none)) := by
  refine ⟨fun hint e => ⟨rfl, rfl, rfl, rfl⟩, fun gen hint => ⟨_, rfl⟩, fun files => ?_⟩
  have h := runExtractLoop_fold files ⟨0, []⟩
  simpa [runExtractLoop] using h

/-! ## C1: procedure body output selection -/

theorem getLast?_cons_char {α : Type} (a : α) (l : List α) :
    (a :: l).getLast? = match l.getLast? with
      | some b => some b
      | none => some a := by
  cases l with
  | nil => rfl
  | cons x xs =>
    rw [List.getLast?_cons_cons]
    cases h : (x :: xs).getLast? with
    | none =>
      exfalso
      have := List.getLast?_isSome.mpr (List.cons_ne_nil x xs)
      rw [h] at this
      simp at this
    | some b => rfl

theorem procBodyScan_fold (hint : Option String) (objs : List (Option ObjectInfo)) :
    ∀ s : ProcScan,
      (objs.foldl (procScanStep hint) s).lastPersistent =
        (match (candTargets objs).getLast? with
         | some o => some o
         | none => s.lastPersistent) ∧
      (objs.foldl (procScanStep hint) s).bestMatch =
        (match (bestCands hint objs).getLast? with
         | some o => some o
         | none => s.bestMatch) := by
  induction objs with
  | nil =>
    intro s
    simp [candTargets, bestCands]
  | cons o? rest ih =>
    intro s
    rw [List.foldl_cons]
    obtain ⟨hl, hb⟩ := ih (procScanStep hint s o?)
    rw [hl, hb]
    cases o? with
    | none =>
      have hc : candTargets (none :: rest) = candTargets rest := by
        simp [candTargets]
      have hbc : bestCands hint (none :: rest) = bestCands hint rest := by
        simp [bestCands, hc]
      have hs : procScanStep hint s none = s := rfl
      rw [hc, hbc, hs]
      exact ⟨rfl, rfl⟩
    | some obj =>
      by_cases htemp : isTempObjName obj.name
      · have hc : candTargets (some obj :: rest) = candTargets rest := by
          simp [candTargets, htemp]
        have hbc : bestCands hint (some obj :: rest) = bestCands hint rest := by
          simp [bestCands, hc]
        have hs : procScanStep hint s (some obj) =
            { s with allInputs := unionU s.allInputs obj.dependencies } := by
          simp [procScanStep, htemp]
        rw [hc, hbc, hs]
        exact ⟨rfl, rfl⟩
      · by_cases haux : isAuxName (basenameOf obj.name)
        · have hc : candTargets (some obj :: rest) = candTargets rest := by
            simp [candTargets, htemp, haux]
          have hbc : bestCands hint (some obj :: rest) = bestCands hint rest := by
            simp [bestCands, hc]
          have hs : procScanStep hint s (some obj) =
              { s with allInputs := unionU s.allInputs obj.dependencies } := by
            simp [procScanStep, htemp, haux]
          rw [hc, hbc, hs]
          exact ⟨rfl, rfl⟩
        · have hc : candTargets (some obj :: rest) = obj :: candTargets rest := by
            simp [candTargets, htemp, haux]
          by_cases hbm : isBestMatch hint (basenameOf obj.name)
          · have hbc : bestCands hint (some obj :: rest) = obj :: bestCands hint rest := by
              simp [bestCands, hc, hbm]
            have hs : procScanStep hint s (some obj) =
                { lastPersistent := some obj, bestMatch := some obj
                  allInputs := unionU s.allInputs obj.dependencies } := by
              simp [procScanStep, htemp, haux, hbm]
            rw [hc, hbc, hs, getLast?_cons_char obj (candTargets rest),
              getLast?_cons_char obj (bestCands hint rest)]
            constructor
            · cases (candTargets rest).getLast? <;> rfl
            · cases (bestCands hint rest).getLast? <;> rfl
          · have hbc : bestCands hint (some obj :: rest) = bestCands hint rest := by
              simp [bestCands, hc, hbm]
            have hs : procScanStep hint s (some obj) =
                { lastPersistent := some obj, bestMatch := s.bestMatch
                  allInputs := unionU s.allInputs obj.dependencies } := by
              simp [procScanStep, htemp, haux, hbm]
            rw [hc, hbc, hs, getLast?_cons_char obj (candTargets rest)]
            constructor
            · cases (candTargets rest).getLast? <;> rfl
            · rfl

/-- C1, amended: the procedure body-statements handler returns the last
parsed non-temp, non-auxiliary INSERT target, except when the hint
basename starts with update_ or load_ and some such target basename
equals or ends with the hint remainder; then the last matching target
wins over the last persistent one. -/
theorem claim_C1_amended (hint : Option String) (objs : List (Option ObjectInfo)) :
    procBodyResult hint objs =
      match (bestCands hint objs).getLast? with
      | some b => some b
      | none => (candTargets objs).getLast? := by
  obtain ⟨hl, hb⟩ := procBodyScan_fold hint objs ⟨none, none, []⟩
  simp only [procBodyResult, procBodyScan]
  rw [hb, hl]
  cases (bestCands hint objs).getLast? with
  | none =>
    cases (candTargets objs).getLast? with
    | none => rfl
    | some o => rfl
  | some b => rfl

/-- C1, counterexample to the claim as stated: with hint `update_foo` and
a body whose last persistent INSERT target is dbo.bar, the handler
returns dbo.foo because its basename matches the hint pattern; the last
persistent target does not win. -/
theorem claim_C1_counterexample :
    (procBodyResult (some "update_foo") [some objFoo, some objBar]).map ObjectInfo.name =
        some "dbo.foo" ∧
      (specLastPersistentTarget [some objFoo, some objBar]).map ObjectInfo.name =
        some "dbo.bar" ∧
      ("dbo.foo" : String) ≠ "dbo.bar" := by
  refine ⟨?_, ?_, ?_⟩
  · decide
  · decide
  · decide

/-! ## C7: star expansion and duplicate output names -/

theorem starColStep_inv (pq : String × String) (desc : String) (a : StarAcc)
    (c : String) (h1 : (a.outputs.map ColumnSchema.name).Nodup)
    (h2 : ∀ n ∈ a.outputs.map ColumnSchema.name, n ∈ a.seen) :
    ((starColStep pq desc a c).outputs.map ColumnSchema.name).Nodup ∧
      ∀ n ∈ (starColStep pq desc a c).outputs.map ColumnSchema.name,
        n ∈ (starColStep pq desc a c).seen := by
  by_cases hc : a.seen.contains c
  · simp only [starColStep, if_pos hc]
    exact ⟨h1, h2⟩
  · have hcm : c ∉ a.seen := by simpa using hc
    simp only [starColStep, if_neg hc]
    constructor
    · simp only [List.map_append, List.map_cons, List.map_nil]
      rw [List.nodup_append]
      refine ⟨h1, by simp, ?_⟩
      intro n hn
      simp only [List.mem_singleton]
      intro heq
      subst heq
      exact hcm (h2 n hn)
    · intro n hn
      simp only [List.map_append, List.map_cons, List.map_nil, List.mem_append,
        List.mem_singleton] at hn
      rcases hn with hn | hn
      · exact List.mem_append_left _ (h2 n hn)
      · subst hn
        exact List.mem_append_right _ (by simp)

theorem starColsFold_inv (pq : String × String) (desc : String) :
    ∀ (cols : List String) (a : StarAcc),
      (a.outputs.map ColumnSchema.name).Nodup →
      (∀ n ∈ a.outputs.map ColumnSchema.name, n ∈ a.seen) →
      ((cols.foldl (starColStep pq desc) a).outputs.map ColumnSchema.name).Nodup ∧
        ∀ n ∈ (cols.foldl (starColStep pq desc) a).outputs.map ColumnSchema.name,
          n ∈ (cols.foldl (starColStep pq desc) a).seen := by
  intro cols
  induction cols with
  | nil => intro a h1 h2; exact ⟨h1, h2⟩
  | cons c rest ih =>
    intro a h1 h2
    obtain ⟨h1s, h2s⟩ := starColStep_inv pq desc a c h1 h2
    exact ih (starColStep pq desc a c) h1s h2s

theorem starAddCols_inv (ctx : ParserCtx) (regs : Registries) (tableName desc : String)
    (a : StarAcc) (h1 : (a.outputs.map ColumnSchema.name).Nodup)
    (h2 : ∀ n ∈ a.outputs.map ColumnSchema.name, n ∈ a.seen) :
    ((starAddCols ctx regs tableName desc a).outputs.map ColumnSchema.name).Nodup ∧
      ∀ n ∈ (starAddCols ctx regs tableName desc a).outputs.map ColumnSchema.name,
        n ∈ (starAddCols ctx regs tableName desc a).seen :=
  starColsFold_inv _ _ _ a h1 h2

theorem starTablesFold_inv (ctx : ParserCtx) (regs : Registries) (desc : String) :
    ∀ (tables : List String) (a : StarAcc),
      (a.outputs.map ColumnSchema.name).Nodup →
      (∀ n ∈ a.outputs.map ColumnSchema.name, n ∈ a.seen) →
      (((tables.foldl (fun acc t => starAddCols ctx regs t desc acc) a).outputs.map
        ColumnSchema.name).Nodup) ∧
        ∀ n ∈ (tables.foldl (fun acc t => starAddCols ctx regs t desc acc) a).outputs.map
          ColumnSchema.name,
          n ∈ (tables.foldl (fun acc t => starAddCols ctx regs t desc acc) a).seen := by
  intro tables
  induction tables with
  | nil => intro a h1 h2; exact ⟨h1, h2⟩
  | cons t rest ih =>
    intro a h1 h2
    obtain ⟨h1s, h2s⟩ := starAddCols_inv ctx regs t desc a h1 h2
    exact ih (starAddCols ctx regs t desc a) h1s h2s

theorem starItemStep_inv (ctx : ParserCtx) (regs : Registries) (m : SelectModel)
    (a : StarAcc) (i : SelectItem) (hstar : isStarItem i = true)
    (h1 : (a.outputs.map ColumnSchema.name).Nodup)
    (h2 : ∀ n ∈ a.outputs.map ColumnSchema.name, n ∈ a.seen) :
    ((starItemStep ctx regs m a i).outputs.map ColumnSchema.name).Nodup ∧
      ∀ n ∈ (starItemStep ctx regs m a i).outputs.map ColumnSchema.name,
        n ∈ (starItemStep ctx regs m a i).seen := by
  cases i with
  | qualifiedStar al =>
    simp only [starItemStep]
    by_cases hu : resolveTableFromAlias m al = "unknown"
    · rw [if_pos hu]
      exact ⟨h1, h2⟩
    · rw [if_neg hu]
      exact starAddCols_inv ctx regs _ _ a h1 h2
  | star =>
    simp only [starItemStep]
    exact starTablesFold_inv ctx regs "SELECT *" _ a h1 h2
  | exprItem al refs text => simp [isStarItem] at hstar

/-- C7, amended: for a projection list consisting only of stars (qualified
or not), the expanded output column names contain no duplicates; an
explicit expression column mixed into the list bypasses the seen-name set
and can repeat a star-expanded name (see the counterexample). -/
theorem claim_C7_amended (ctx : ParserCtx) (regs : Registries) (m : SelectModel)
    (hstar : ∀ i ∈ m.items, isStarItem i = true) :
    ((handleStarExpansion ctx regs m).2.map ColumnSchema.name).Nodup := by
  have main : ∀ (items : List SelectItem), (∀ i ∈ items, isStarItem i = true) →
      ∀ a : StarAcc, (a.outputs.map ColumnSchema.name).Nodup →
      (∀ n ∈ a.outputs.map ColumnSchema.name, n ∈ a.seen) →
      ((items.foldl (starItemStep ctx regs m) a).outputs.map ColumnSchema.name).Nodup := by
    intro items
    induction items with
    | nil => intro _ a h1 _; exact h1
    | cons i rest ih =>
      intro hall a h1 h2
      obtain ⟨h1s, h2s⟩ :=
        starItemStep_inv ctx regs m a i (hall i (by simp)) h1 h2
      exact ih (fun j hj => hall j (List.mem_cons_of_mem _ hj)) _ h1s h2s
  exact main m.items hstar ⟨[], [], [], 0⟩ (by simp) (by simp)

/-- C7, counterexample to the claim as stated: `SELECT *, 1 AS a FROM
dbo.t` with t(a, b) produces the output names a, b, a — a duplicate
within one projection list. -/
theorem claim_C7_counterexample :
    ((handleStarExpansion ctxDefault regsDup mDup).2.map ColumnSchema.name) =
        ["a", "b", "a"] ∧
      ¬ ((handleStarExpansion ctxDefault regsDup mDup).2.map ColumnSchema.name).Nodup := by
  constructor
  · decide
  · decide

/-- C7, witness: the amended theorem at a concrete all-star projection. -/
theorem claim_C7_witness :
    (∀ i ∈ (SelectModel.mk [SelectItem.star] [] ["dbo.t"]).items, isStarItem i = true) ∧
      ((handleStarExpansion ctxDefault regsDup
        (SelectModel.mk [SelectItem.star] [] ["dbo.t"])).2.map ColumnSchema.name).Nodup :=
  ⟨by decide,
   claim_C7_amended ctxDefault regsDup (SelectModel.mk [SelectItem.star] [] ["dbo.t"])
     (by decide)⟩

/-! ## C5: temp-table versioning -/

theorem undigit_digitChar : ∀ d, d < 10 → undigit (digitChar d) = d := by decide

theorem revVal_natToRevDigitsAux : ∀ f n : Nat, n ≤ f →
    revVal (natToRevDigitsAux f n) = n := by
  intro f
  induction f with
  | zero =>
    intro n h
    have : n = 0 := Nat.le_zero.mp h
    subst this
    rfl
  | succ f ih =>
    intro n h
    by_cases h0 : n = 0
    · subst h0
      simp [natToRevDigitsAux, revVal]
    · simp only [natToRevDigitsAux, if_neg h0, revVal]
      have hd : n / 10 ≤ f := by
        have : n / 10 < n := Nat.div_lt_self (Nat.pos_of_ne_zero h0) (by decide)
        omega
      rw [undigit_digitChar _ (Nat.mod_lt _ (by decide)), ih (n / 10) hd]
      omega

theorem revVal_natToRevDigits (n : Nat) : revVal (natToRevDigits n) = n :=
  revVal_natToRevDigitsAux (n + 1) n (by omega)

theorem natRepr_inj {a b : Nat} (h : natRepr a = natRepr b) : a = b := by
  have hdata := congrArg String.data h
  by_cases ha : a = 0 <;> by_cases hb : b = 0
  · omega
  · exfalso
    simp only [natRepr, if_pos ha, if_neg hb] at hdata
    have : (natToRevDigits b).reverse = ['0'] := hdata.symm
    have hb0 : natToRevDigits b = ['0'] := by
      have := congrArg List.reverse this
      simpa using this
    have := revVal_natToRevDigits b
    rw [hb0] at this
    simp [revVal, undigit] at this
    omega
  · exfalso
    simp only [natRepr, if_neg ha, if_pos hb] at hdata
    have ha0 : natToRevDigits a = ['0'] := by
      have := congrArg List.reverse hdata
      simpa using this
    have := revVal_natToRevDigits a
    rw [ha0] at this
    simp [revVal, undigit] at this
    omega
  · simp only [natRepr, if_neg ha, if_neg hb] at hdata
    have hrev : natToRevDigits a = natToRevDigits b := by
      have := congrArg List.reverse hdata
      simpa using this
    have h1 := revVal_natToRevDigits a
    rw [hrev, revVal_natToRevDigits b] at h1
    omega

theorem data_append (a b : String) : (a ++ b).data = a.data ++ b.data := by
  cases a
  cases b
  rfl

theorem verKeyOf_data (n : String) (v : Nat) :
    (verKeyOf n v).data = n.data ++ '@' :: (natRepr v).data := by
  show ((n ++ "@") ++ natRepr v).data = _
  rw [data_append, data_append]
  simp

theorem at_mem_verKey (n : String) (v : Nat) : '@' ∈ (verKeyOf n v).data := by
  rw [verKeyOf_data]
  simp

theorem verKey_ne_plain {n : String} {v : Nat} {m : String} (hm : '@' ∉ m.data) :
    verKeyOf n v ≠ m := by
  intro h
  exact hm (h ▸ at_mem_verKey n v)

theorem first_at_decomp : ∀ (l1 : List Char) {l2 r1 r2 : List Char},
    '@' ∉ l1 → '@' ∉ l2 → l1 ++ '@' :: r1 = l2 ++ '@' :: r2 → l1 = l2 ∧ r1 = r2 := by
  intro l1
  induction l1 with
  | nil =>
    intro l2 r1 r2 _ h2 h
    cases l2 with
    | nil =>
      simp at h
      exact ⟨rfl, h⟩
    | cons c t =>
      simp at h
      exfalso
      apply h2
      rw [← h.1]
      simp
  | cons c t ih =>
    intro l2 r1 r2 h1 h2 h
    cases l2 with
    | nil =>
      simp at h
      exfalso
      apply h1
      rw [h.1]
      simp
    | cons c2 t2 =>
      simp only [List.cons_append, List.cons.injEq] at h
      have h1t : '@' ∉ t := fun hx => h1 (List.mem_cons_of_mem _ hx)
      have h2t : '@' ∉ t2 := fun hx => h2 (List.mem_cons_of_mem _ hx)
      obtain ⟨ht, hr⟩ := ih h1t h2t h.2
      exact ⟨by rw [h.1, ht], hr⟩

theorem verKeyOf_inj {n1 n2 : String} {v1 v2 : Nat} (h1 : '@' ∉ n1.data)
    (h2 : '@' ∉ n2.data) (h : verKeyOf n1 v1 = verKeyOf n2 v2) :
    n1 = n2 ∧ v1 = v2 := by
  have hd := congrArg String.data h
  rw [verKeyOf_data, verKeyOf_data] at hd
  obtain ⟨hn, hr⟩ := first_at_decomp _ h1 h2 hd
  exact ⟨String.ext hn, natRepr_inj (String.ext hr)⟩

theorem versionOf_commit_self (st : TempState) (tname : String) (cols deps : List String)
    (lin : List ColumnLineage) :
    versionOf (commitSelectInto st tname cols deps lin) (simpleKeyOf tname) =
      versionOf st (simpleKeyOf tname) + 1 := by
  simp only [commitSelectInto, tempNext, versionOf]
  rw [assocFind_assocSet_self]
  rfl

theorem versionOf_commit_other (st : TempState) (tname : String) (cols deps : List String)
    (lin : List ColumnLineage) {n : String} (hn : simpleKeyOf tname ≠ n) :
    versionOf (commitSelectInto st tname cols deps lin) n = versionOf st n := by
  simp only [commitSelectInto, tempNext, versionOf]
  rw [assocFind_assocSet_ne _ _ hn]

theorem commit_registry_eq (st : TempState) (tname : String) (cols deps : List String)
    (lin : List ColumnLineage) :
    (commitSelectInto st tname cols deps lin).temp_registry =
      assocSet (assocSet st.temp_registry
        (verKeyOf (simpleKeyOf tname) (versionOf st (simpleKeyOf tname) + 1)) cols)
        (simpleKeyOf tname) cols := rfl

theorem commit_lineage_eq (st : TempState) (tname : String) (cols deps : List String)
    (lin : List ColumnLineage) :
    (commitSelectInto st tname cols deps lin).temp_lineage =
      assocSet (assocSet st.temp_lineage
        (verKeyOf (simpleKeyOf tname) (versionOf st (simpleKeyOf tname) + 1))
        (colMapOf lin))
        (simpleKeyOf tname) (colMapOf lin) := rfl

theorem commit_binding (st : TempState) (e : SelIntoEv) (he : goodEv e) :
    assocFind (commitSelectInto st e.name e.cols e.deps e.lineage).temp_registry
        (verKeyOf e.name (versionOf st e.name + 1)) = some e.cols ∧
      assocFind (commitSelectInto st e.name e.cols e.deps e.lineage).temp_registry
        e.name = some e.cols ∧
      assocFind (commitSelectInto st e.name e.cols e.deps e.lineage).temp_lineage
        (verKeyOf e.name (versionOf st e.name + 1)) = some (colMapOf e.lineage) ∧
      assocFind (commitSelectInto st e.name e.cols e.deps e.lineage).temp_lineage
        e.name = some (colMapOf e.lineage) := by
  obtain ⟨hkey, hat⟩ := he
  have hne : e.name ≠ verKeyOf e.name (versionOf st e.name + 1) :=
    fun h => verKey_ne_plain hat h.symm
  refine ⟨?_, ?_, ?_, ?_⟩
  · rw [commit_registry_eq, hkey, assocFind_assocSet_ne _ _ hne,
      assocFind_assocSet_self]
  · rw [commit_registry_eq, hkey, assocFind_assocSet_self]
  · rw [commit_lineage_eq, hkey, assocFind_assocSet_ne _ _ hne,
      assocFind_assocSet_self]
  · rw [commit_lineage_eq, hkey, assocFind_assocSet_self]

theorem commit_preserves_verKey (st : TempState) (e : SelIntoEv) (he : goodEv e)
    {m : String} (hm : '@' ∉ m.data) {w : Nat} (hw : w ≤ versionOf st m) :
    assocFind (commitSelectInto st e.name e.cols e.deps e.lineage).temp_registry
        (verKeyOf m w) = assocFind st.temp_registry (verKeyOf m w) ∧
      assocFind (commitSelectInto st e.name e.cols e.deps e.lineage).temp_lineage
        (verKeyOf m w) = assocFind st.temp_lineage (verKeyOf m w) ∧
      w ≤ versionOf (commitSelectInto st e.name e.cols e.deps e.lineage) m := by
  obtain ⟨hkey, hat⟩ := he
  have hbare : e.name ≠ verKeyOf m w := Ne.symm (verKey_ne_plain hat)
  have hver : verKeyOf e.name (versionOf st e.name + 1) ≠ verKeyOf m w := by
    intro h
    obtain ⟨hn, hv⟩ := verKeyOf_inj hat hm h
    subst hn
    omega
  refine ⟨?_, ?_, ?_⟩
  · rw [commit_registry_eq, hkey, assocFind_assocSet_ne _ _ hbare,
      assocFind_assocSet_ne _ _ hver]
  · rw [commit_lineage_eq, hkey, assocFind_assocSet_ne _ _ hbare,
      assocFind_assocSet_ne _ _ hver]
  · by_cases hem : e.name = m
    · subst hem
      have hv := versionOf_commit_self st e.name e.cols e.deps e.lineage
      rw [hkey] at hv
      rw [hv]
      omega
    · have hv := versionOf_commit_other st e.name e.cols e.deps e.lineage
        (n := m) (by rw [hkey]; exact hem)
      rw [hv]
      exact hw

theorem run_preserves_verKey (l2 : List SelIntoEv) :
    ∀ st : TempState, (∀ ev ∈ l2, goodEv ev) →
      ∀ {m : String}, '@' ∉ m.data → ∀ {w : Nat}, w ≤ versionOf st m →
      assocFind (l2.foldl
          (fun st e => commitSelectInto st e.name e.cols e.deps e.lineage) st).temp_registry
          (verKeyOf m w) = assocFind st.temp_registry (verKeyOf m w) ∧
        assocFind (l2.foldl
          (fun st e => commitSelectInto st e.name e.cols e.deps e.lineage) st).temp_lineage
          (verKeyOf m w) = assocFind st.temp_lineage (verKeyOf m w) := by
  induction l2 with
  | nil =>
    intro st _ m hm w hw
    exact ⟨rfl, rfl⟩
  | cons e rest ih =>
    intro st hall m hm w hw
    rw [List.foldl_cons]
    obtain ⟨hr, hl, hv⟩ := commit_preserves_verKey st e (hall e (by simp)) hm hw
    obtain ⟨hr2, hl2⟩ :=
      ih _ (fun ev hev => hall ev (List.mem_cons_of_mem _ hev)) hm hv
    exact ⟨hr2.trans hr, hl2.trans hl⟩

/-- C5: within one file parse, (a) each SELECT ... INTO of a logical temp
name creates version v+1 where v was the previous version (starting from
zero); (b) a committed version key keeps the committed columns and
lineage unchanged across any later commits; and (c) the bare temp name
always resolves to the columns and lineage stored under the highest
version key. -/
theorem claim_C5 :
    (∀ (st : TempState) (e : SelIntoEv), simpleKeyOf e.name = e.name →
      versionOf (commitSelectInto st e.name e.cols e.deps e.lineage) e.name =
        versionOf st e.name + 1) ∧
    (∀ (l1 : List SelIntoEv) (e : SelIntoEv) (l2 : List SelIntoEv),
      (∀ ev ∈ l1 ++ e :: l2, goodEv ev) →
      assocFind (runSelInto (l1 ++ e :: l2)).temp_registry
          (verKeyOf e.name (versionOf (runSelInto (l1 ++ [e])) e.name)) = some e.cols ∧
        assocFind (runSelInto (l1 ++ e :: l2)).temp_lineage
          (verKeyOf e.name (versionOf (runSelInto (l1 ++ [e])) e.name)) =
            some (colMapOf e.lineage)) ∧
    (∀ evs : List SelIntoEv, (∀ ev ∈ evs, goodEv ev) →
      ∀ n, 1 ≤ versionOf (runSelInto evs) n →
        assocFind (runSelInto evs).temp_registry n =
          assocFind (runSelInto evs).temp_registry
            (verKeyOf n (versionOf (runSelInto evs) n)) ∧
        assocFind (runSelInto evs).temp_lineage n =
          assocFind (runSelInto evs).temp_lineage
            (verKeyOf n (versionOf (runSelInto evs) n))) := by
  refine ⟨?_, ?_, ?_⟩
  · intro st e he
    have := versionOf_commit_self st e.name e.cols e.deps e.lineage
    rw [he] at this
    exact this
  · intro l1 e l2 hall
    have hgoodE : goodEv e := hall e (by simp)
    have hgood2 : ∀ ev ∈ l2, goodEv ev := fun ev hev => hall ev (by simp [hev])
    have hsplit : runSelInto (l1 ++ e :: l2) =
        l2.foldl (fun st ev => commitSelectInto st ev.name ev.cols ev.deps ev.lineage)
          (commitSelectInto (runSelInto l1) e.name e.cols e.deps e.lineage) := by
      simp [runSelInto, List.foldl_append]
    have hone : runSelInto (l1 ++ [e]) =
        commitSelectInto (runSelInto l1) e.name e.cols e.deps e.lineage := by
      simp [runSelInto, List.foldl_append]
    obtain ⟨hb1, hb2, hb3, hb4⟩ := commit_binding (runSelInto l1) e hgoodE
    have hver1 :
        versionOf (commitSelectInto (runSelInto l1) e.name e.cols e.deps e.lineage)
          e.name = versionOf (runSelInto l1) e.name + 1 := by
      have := versionOf_commit_self (runSelInto l1) e.name e.cols e.deps e.lineage
      rw [hgoodE.1] at this
      exact this
    obtain ⟨hp1, hp2⟩ := run_preserves_verKey l2
      (commitSelectInto (runSelInto l1) e.name e.cols e.deps e.lineage) hgood2 hgoodE.2
      (le_refl _)
    rw [hsplit, hone, hver1]
    rw [hver1] at hp1 hp2
    rw [hp1, hp2]
    exact ⟨hb1, hb3⟩
  · intro evs hall
    have main : ∀ (l : List SelIntoEv), (∀ ev ∈ l, goodEv ev) →
        ∀ st : TempState,
        (∀ n, 1 ≤ versionOf st n → '@' ∉ n.data ∧
          assocFind st.temp_registry n =
            assocFind st.temp_registry (verKeyOf n (versionOf st n)) ∧
          assocFind st.temp_lineage n =
            assocFind st.temp_lineage (verKeyOf n (versionOf st n))) →
        (∀ n, 1 ≤ versionOf (l.foldl
            (fun st e => commitSelectInto st e.name e.cols e.deps e.lineage) st) n →
          '@' ∉ n.data ∧
          assocFind (l.foldl
            (fun st e => commitSelectInto st e.name e.cols e.deps e.lineage) st).temp_registry n =
            assocFind (l.foldl
              (fun st e => commitSelectInto st e.name e.cols e.deps e.lineage) st).temp_registry
              (verKeyOf n (versionOf (l.foldl
                (fun st e => commitSelectInto st e.name e.cols e.deps e.lineage) st) n)) ∧
          assocFind (l.foldl
            (fun st e => commitSelectInto st e.name e.cols e.deps e.lineage) st).temp_lineage n =
            assocFind (l.foldl
              (fun st e => commitSelectInto st e.name e.cols e.deps e.lineage) st).temp_lineage
              (verKeyOf n (versionOf (l.foldl
                (fun st e => commitSelectInto st e.name e.cols e.deps e.lineage) st) n))) := by
      intro l
      induction l with
      | nil => intro _ st hinv; exact hinv
      | cons e rest ih =>
        intro hall2 st hinv
        rw [List.foldl_cons]
        apply ih (fun ev hev => hall2 ev (List.mem_cons_of_mem _ hev))
        intro n hn
        have hgoodE : goodEv e := hall2 e (by simp)
        by_cases hen : e.name = n
        · subst hen
          refine ⟨hgoodE.2, ?_, ?_⟩
          · obtain ⟨hb1, hb2, _, _⟩ := commit_binding st e hgoodE
            have hv : versionOf (commitSelectInto st e.name e.cols e.deps e.lineage) e.name =
                versionOf st e.name + 1 := by
              have := versionOf_commit_self st e.name e.cols e.deps e.lineage
              rw [hgoodE.1] at this
              exact this
            rw [hv, hb2, hb1]
          · obtain ⟨_, _, hb3, hb4⟩ := commit_binding st e hgoodE
            have hv : versionOf (commitSelectInto st e.name e.cols e.deps e.lineage) e.name =
                versionOf st e.name + 1 := by
              have := versionOf_commit_self st e.name e.cols e.deps e.lineage
              rw [hgoodE.1] at this
              exact this
            rw [hv, hb4, hb3]
        · have hvo : versionOf (commitSelectInto st e.name e.cols e.deps e.lineage) n =
              versionOf st n := by
            apply versionOf_commit_other
            rw [hgoodE.1]
            exact hen
          rw [hvo] at hn ⊢
          obtain ⟨hatn, hrn, hln⟩ := hinv n hn
          refine ⟨hatn, ?_, ?_⟩
          · have hbare : e.name ≠ n := hen
            have hbare2 : e.name ≠ verKeyOf n (versionOf st n) :=
              Ne.symm (verKey_ne_plain hgoodE.2)
            have hverne : verKeyOf e.name (versionOf st e.name + 1) ≠ n :=
              verKey_ne_plain hatn
            have hverne2 : verKeyOf e.name (versionOf st e.name + 1) ≠
                verKeyOf n (versionOf st n) := by
              intro h
              obtain ⟨hnn, _⟩ := verKeyOf_inj hgoodE.2 hatn h
              exact hen hnn
            rw [commit_registry_eq, hgoodE.1,
              assocFind_assocSet_ne _ _ hbare, assocFind_assocSet_ne _ _ hverne,
              assocFind_assocSet_ne _ _ hbare2, assocFind_assocSet_ne _ _ hverne2]
            exact hrn
          · have hbare : e.name ≠ n := hen
            have hbare2 : e.name ≠ verKeyOf n (versionOf st n) :=
              Ne.symm (verKey_ne_plain hgoodE.2)
            have hverne : verKeyOf e.name (versionOf st e.name + 1) ≠ n :=
              verKey_ne_plain hatn
            have hverne2 : verKeyOf e.name (versionOf st e.name + 1) ≠
                verKeyOf n (versionOf st n) := by
              intro h
              obtain ⟨hnn, _⟩ := verKeyOf_inj hgoodE.2 hatn h
              exact hen hnn
            rw [commit_lineage_eq, hgoodE.1,
              assocFind_assocSet_ne _ _ hbare, assocFind_assocSet_ne _ _ hverne,
              assocFind_assocSet_ne _ _ hbare2, assocFind_assocSet_ne _ _ hverne2]
            exact hln
    intro n hn
    have := main evs hall TempState.empty
      (fun n hn => by simp [TempState.empty, versionOf, assocFind] at hn) n hn
    exact ⟨this.2.1, this.2.2⟩

/-- C5, witness: two commits of #t from the empty state — the second
commit creates version 2, version 1 keeps its columns, and the bare name
resolves to the version-2 columns. -/
theorem claim_C5_witness :
    simpleKeyOf "#t" = "#t" ∧
      versionOf (commitSelectInto TempState.empty "#t" ["a", "b"] ["dbo.A"] []) "#t" =
        versionOf TempState.empty "#t" + 1 ∧
      assocFind (runSelInto [⟨"#t", ["a", "b"], ["dbo.A"], []⟩,
          ⟨"#t", ["x"], ["dbo.C"], []⟩]).temp_registry
        (verKeyOf "#t" (versionOf (runSelInto [⟨"#t", ["a", "b"], ["dbo.A"], []⟩]) "#t")) =
          some ["a", "b"] ∧
      assocFind (runSelInto [⟨"#t", ["a", "b"], ["dbo.A"], []⟩,
          ⟨"#t", ["x"], ["dbo.C"], []⟩]).temp_registry "#t" =
        assocFind (runSelInto [⟨"#t", ["a", "b"], ["dbo.A"], []⟩,
          ⟨"#t", ["x"], ["dbo.C"], []⟩]).temp_registry
          (verKeyOf "#t" (versionOf (runSelInto [⟨"#t", ["a", "b"], ["dbo.A"], []⟩,
            ⟨"#t", ["x"], ["dbo.C"], []⟩]) "#t")) :=
  ⟨by decide,
   claim_C5.1 TempState.empty ⟨"#t", ["a", "b"], ["dbo.A"], []⟩ (by decide),
   (claim_C5.2.1 [] ⟨"#t", ["a", "b"], ["dbo.A"], []⟩ [⟨"#t", ["x"], ["dbo.C"], []⟩]
     (by simp only [goodEv]; decide)).1,
   (claim_C5.2.2 [⟨"#t", ["a", "b"], ["dbo.A"], []⟩, ⟨"#t", ["x"], ["dbo.C"], []⟩]
     (by simp only [goodEv]; decide) "#t" (by decide)).1⟩

end InfoTracker
